import Mathlib

/-!
FADEC sensor acquisition and calibration: a shallow embedding.

The development embeds the load-cell driver (`HX711.cpp`), the calibration persistence
(`HX711_setup.cpp`), the rotation sensor (`hall_info.cpp`) and the filters and number input of
`library.cpp` as Lean functions over explicit state, and proves properties of them.

Conventions of the embedding.

* Hardware is explicit state.  Pin levels are `Bool` (`true` = `HIGH`, `false` = `LOW`).  The data
  pin is driven by a script: the list of levels that successive `digitalRead` calls will see.  Every
  pin operation is appended to a log, oldest first.
* A blocking call returns `Option`: `none` stands for a call that never returns a value (the script
  ends while the code is still waiting or sampling, or the code divides by zero).
* `long` is a two's-complement integer whose width is fixed by the platform data model
  (`DataModel`); sums and differences of `long` values wrap at that width.
* `float`/`double` quantities that take part in arithmetic are exact rationals; a division by zero
  yields `none`.  Rounding is not modelled; a single-precision literal (`93723.34f`, `0.1f`) has
  the exact value of the `float` it denotes.
* The serial line is a script as well: the bytes that will arrive, and the bytes written so far.
-/

namespace FADEC

/-! ## Platform data model -/

/-- C data models the sources can be built for: 8-bit AVR (`long` and `double` are 4 bytes),
32-bit targets (`long` 4 bytes, `double` 8 bytes) and LP64 hosts (both 8 bytes).  Byte order is
little-endian on all three. -/
inductive DataModel where
  | avr
  | ilp32
  | lp64
deriving DecidableEq

/-- Value of `sizeof(long)` = `sizeof(unsigned long)`, in bytes. -/
def sizeof_long : DataModel → Nat
  | .avr => 4
  | .ilp32 => 4
  | .lp64 => 8

/-- Value of `sizeof(double)`, in bytes. -/
def sizeof_double : DataModel → Nat
  | .avr => 4
  | .ilp32 => 8
  | .lp64 => 8

/-- Number of bits of a `long`. -/
def long_bits (dm : DataModel) : Nat := 8 * sizeof_long dm

/-- Largest `long`, `LONG_MAX`. -/
def LONG_MAX (dm : DataModel) : Int := 2 ^ (long_bits dm - 1) - 1

/-- Smallest `long`, `LONG_MIN`. -/
def LONG_MIN (dm : DataModel) : Int := -(2 ^ (long_bits dm - 1))

/-- Reduction of an integer to the `long` range: the value a two's-complement `long` holds after
an arithmetic result or a conversion. -/
def wrap_long (dm : DataModel) (x : Int) : Int :=
  (x + 2 ^ (long_bits dm - 1)) % 2 ^ long_bits dm - 2 ^ (long_bits dm - 1)

/-- Float division `a / b` over exact rationals; `none` when the divisor is zero. -/
def fdiv (a b : ℚ) : Option ℚ :=
  if b = 0 then none else some (a / b)

/-! ## GPIO -/

/-- One pin operation, as recorded in the log. -/
inductive PinOp where
  | write (pin : Nat) (level : Bool)
  | read (pin : Nat)
deriving DecidableEq

/-- The wire seen from the microcontroller: `din` holds the levels that the next `digitalRead`
calls return, `log` the pin operations performed so far (oldest first), and `garbage k` is what
byte `k` of a fresh, uninitialised local array happens to contain. -/
structure Wire where
  din : List Bool
  log : List PinOp
  garbage : Nat → Nat

/-- Arduino `digitalWrite(pin, level)`. -/
def digitalWrite (pin : Nat) (level : Bool) (w : Wire) : Wire :=
  { w with log := w.log ++ [PinOp.write pin level] }

/-- Arduino `digitalRead(pin)`: takes the next scripted level; `none` when the script is over. -/
def digitalRead (pin : Nat) (w : Wire) : Option (Bool × Wire) :=
  match w.din with
  | [] => none
  | b :: rest => some (b, { w with din := rest, log := w.log ++ [PinOp.read pin] })

/-- Arduino `bitWrite(value, bit, bitvalue)` on a `byte`:
`bitvalue ? (value |= 1UL << bit) : (value &= ~(1UL << bit))`. -/
def bitWrite (value bit : Nat) (bitvalue : Bool) : Nat :=
  if bitvalue then (value ||| (1 <<< bit)) % 256
  else (value &&& (0xFFFFFFFF ^^^ (1 <<< bit))) % 256

/-! ## HX711 load-cell driver (`HX711.cpp`) -/

/-- Modelled from the spec: the class declaration `HX711.h` is not among the sources.  The members
are those the methods use: the pins `PD_SCK` and `DOUT` and the pulse selector `GAIN` (bytes),
`OFFSET` and `m_last` (`long`), and `SCALE` (`float`, an exact rational here). -/
structure HX711 where
  PD_SCK : Nat
  DOUT : Nat
  GAIN : Nat
  OFFSET : Int
  SCALE : ℚ
  m_last : Int

/-- The method `HX711::is_ready`: `digitalRead(DOUT) == LOW`. -/
def is_ready (s : HX711) (w : Wire) : Option (Bool × Wire) :=
  match digitalRead s.DOUT w with
  | none => none
  | some (level, w1) => some (!level, w1)

/-- The loop `while (!is_ready());`.  Each poll consumes one scripted level, so `fuel` equal to the
length of the script is never the reason for `none`. -/
def wait_ready (s : HX711) : Nat → Wire → Option Wire
  | 0, _ => none
  | fuel + 1, w =>
    match is_ready s w with
    | none => none
    | some (true, w1) => some w1
    | some (false, w1) => wait_ready s fuel w1

/-- The inner loop `for (char i = 8; i--;)` of `read`, entered with counter `i`: one clock pulse
per bit, the sampled level written to bit `i - 1` of `data[j]`. -/
def read_bits (s : HX711) (j : Nat) : Nat → (Nat → Nat) → Wire → Option ((Nat → Nat) × Wire)
  | 0, data, w => some (data, w)
  | i + 1, data, w =>
    match digitalRead s.DOUT (digitalWrite s.PD_SCK true w) with
    | none => none
    | some (b, w1) =>
      read_bits s j i (Function.update data j (bitWrite (data j) i b))
        (digitalWrite s.PD_SCK false w1)

/-- The outer loop `for (byte j = 3; j--;)` of `read`, entered with counter `j`. -/
def read_bytes (s : HX711) : Nat → (Nat → Nat) → Wire → Option ((Nat → Nat) × Wire)
  | 0, data, w => some (data, w)
  | j + 1, data, w =>
    match read_bits s j 8 data w with
    | none => none
    | some (data1, w1) => read_bytes s j data1 w1

/-- The loop `for (int i = 0; i < GAIN; i++)` of `read`: `k` clock pulses without sampling. -/
def gain_pulses (s : HX711) : Nat → Wire → Wire
  | 0, w => w
  | k + 1, w => gain_pulses s k (digitalWrite s.PD_SCK false (digitalWrite s.PD_SCK true w))

/-- The method `HX711::read`. -/
def read (dm : DataModel) (s : HX711) (w : Wire) : Option (Int × HX711 × Wire) :=
  match wait_ready s w.din.length w with
  | none => none
  | some w0 =>
    match read_bytes s 3 (fun k => w0.garbage k % 256) w0 with
    | none => none
    | some (data, w1) =>
      let w2 := gain_pulses s s.GAIN w1
      let data2 := data 2 ^^^ 0x80
      let v : Nat := ((data2 <<< 16) ||| (data 1 <<< 8) ||| data 0) % 2 ^ 32
      let m := wrap_long dm (v : Int)
      some (m, { s with m_last := m }, w2)

/-- The method `HX711::set_gain`. -/
def set_gain (dm : DataModel) (gain : Nat) (s : HX711) (w : Wire) : Option (HX711 × Wire) :=
  let s1 : HX711 :=
    if gain = 128 then { s with GAIN := 1 }
    else if gain = 64 then { s with GAIN := 3 }
    else if gain = 32 then { s with GAIN := 2 }
    else s
  match read dm s1 (digitalWrite s1.PD_SCK false w) with
  | none => none
  | some (_, s2, w2) => some (s2, w2)

/-- The loop of `read_average`, with `n` iterations left and the accumulator `sum`. -/
def read_sum (dm : DataModel) : Nat → Int → HX711 → Wire → Option (Int × HX711 × Wire)
  | 0, sum, s, w => some (sum, s, w)
  | n + 1, sum, s, w =>
    match read dm s w with
    | none => none
    | some (r, s1, w1) => read_sum dm n (wrap_long dm (sum + r)) s1 w1

/-- The method `HX711::read_average`; `times` is a `byte`.  Division truncates toward zero, and a
zero `times` divides by zero. -/
def read_average (dm : DataModel) (times : Nat) (s : HX711) (w : Wire) :
    Option (Int × HX711 × Wire) :=
  match read_sum dm times 0 s w with
  | none => none
  | some (sum, s1, w1) =>
    if times = 0 then none
    else
      let m := Int.tdiv sum (times : Int)
      some (m, { s1 with m_last := m }, w1)

/-- The method `HX711::get_value`. -/
def get_value (dm : DataModel) (times : Nat) (s : HX711) (w : Wire) :
    Option (Int × HX711 × Wire) :=
  match read_average dm times s w with
  | none => none
  | some (avg, s1, w1) => some (wrap_long dm (avg - s1.OFFSET), s1, w1)

/-- The method `HX711::get_units`; the inner `Option` is the float quotient. -/
def get_units (dm : DataModel) (times : Nat) (s : HX711) (w : Wire) :
    Option (Option ℚ × HX711 × Wire) :=
  match get_value dm times s w with
  | none => none
  | some (v, s1, w1) => some (fdiv (v : ℚ) s1.SCALE, s1, w1)

/-- The method `HX711::get_last_units`. -/
def get_last_units (dm : DataModel) (s : HX711) (w : Wire) : Option ℚ × HX711 × Wire :=
  (fdiv ((wrap_long dm (s.m_last - s.OFFSET) : Int) : ℚ) s.SCALE, s, w)

/-- The method `HX711::set_scale`. -/
def set_scale (scale : ℚ) (s : HX711) : ℚ × HX711 :=
  (scale, { s with SCALE := scale })

/-- The method `HX711::set_offset`. -/
def set_offset (offset : Int) (s : HX711) : Int × HX711 :=
  (offset, { s with OFFSET := offset })

/-- The method `HX711::tare`. -/
def tare (dm : DataModel) (times : Nat) (s : HX711) (w : Wire) : Option (Int × HX711 × Wire) :=
  match read_average dm times s w with
  | none => none
  | some (sum, s1, w1) => some (sum, (set_offset sum s1).2, w1)

/-! ## Wire-side vocabulary used by the statements -/

/-- Big-endian value of a bit sequence: the first bit has the highest weight, so for
`[b23, ..., b0]` this is the sum of `b_i * 2^i`. -/
def wireCode : List Bool → Nat
  | [] => 0
  | b :: bs => b.toNat * 2 ^ bs.length + wireCode bs

/-- Script of one conversion: `idle` polls that see `HIGH` (device busy), the poll that sees `LOW`
(device ready), then the data bits in sampling order. -/
def frame (idle : Nat) (bits : List Bool) : List Bool :=
  List.replicate idle true ++ false :: bits

/-- Log of one clock pulse during which the data pin is sampled. -/
def dataPulse (s : HX711) : List PinOp :=
  [PinOp.write s.PD_SCK true, PinOp.read s.DOUT, PinOp.write s.PD_SCK false]

/-- Log of one clock pulse without sampling. -/
def gainPulse (s : HX711) : List PinOp :=
  [PinOp.write s.PD_SCK true, PinOp.write s.PD_SCK false]

/-- Log of `n` repetitions of a pulse. -/
def pulses (p : List PinOp) : Nat → List PinOp
  | 0 => []
  | n + 1 => p ++ pulses p n

/-- Log of one complete `read` transaction of channel `s`: `idle + 1` polls of the data pin (the
last one sees the device ready), 24 sampled clock pulses, then `GAIN` unsampled clock pulses. -/
def transaction (s : HX711) (idle : Nat) : List PinOp :=
  List.replicate (idle + 1) (PinOp.read s.DOUT) ++ pulses (dataPulse s) 24
    ++ pulses (gainPulse s) s.GAIN

/-- The `n` most significant-first bits of `v`: `[bit (n-1), ..., bit 0]`. -/
def toBits : Nat → Nat → List Bool
  | 0, _ => []
  | n + 1, v => v.testBit n :: toBits n v

/-- Bits the device shifts out, in sampling order, for a conversion that `read` reports as the
raw code `r`: the 24 bits of `r` with the top bit inverted. -/
def encode (r : Nat) : List Bool := toBits 24 (r ^^^ 0x800000)

/-- Script of successive conversions, each given as (number of busy polls, raw code). -/
def script : List (Nat × Nat) → List Bool
  | [] => []
  | c :: cs => frame c.1 (encode c.2) ++ script cs

/-- Log of the `read` transactions of successive conversions. -/
def transactions (s : HX711) : List (Nat × Nat) → List PinOp
  | [] => []
  | c :: cs => transaction s c.1 ++ transactions s cs

/-- The accumulator of `read_average` after adding the given raw codes to `acc`, in `long`
arithmetic. -/
def long_sum (dm : DataModel) : Int → List Nat → Int
  | acc, [] => acc
  | acc, r :: rs => long_sum dm (wrap_long dm (acc + (r : Int))) rs

/-! ## Non-volatile storage (Arduino `EEPROM`) -/

/-- One storage access, as recorded in the log. -/
inductive EepromOp where
  | read (addr : Nat)
  | write (addr : Nat) (value : Nat)
deriving DecidableEq

/-- The byte storage: `cells a` is the content of address `a`, `log` the accesses so far (oldest
first). -/
structure EEPROM where
  cells : Nat → Nat
  log : List EepromOp

/-- Arduino `EEPROM.read(addr)`: the byte at `addr`. -/
def EEPROM.read (addr : Nat) (e : EEPROM) : Nat × EEPROM :=
  (e.cells addr % 256, { e with log := e.log ++ [EepromOp.read addr] })

/-- Arduino `EEPROM.write(addr, value)`. -/
def EEPROM.write (addr value : Nat) (e : EEPROM) : EEPROM :=
  { cells := Function.update e.cells addr (value % 256),
    log := e.log ++ [EepromOp.write addr (value % 256)] }

/-- Arduino `EEPROM.update(addr, value)`: writes only when the stored byte differs. -/
def EEPROM.update (addr value : Nat) (e : EEPROM) : EEPROM :=
  if (EEPROM.read addr e).1 = value % 256 then (EEPROM.read addr e).2
  else EEPROM.write addr value (EEPROM.read addr e).2

/-! ## Object representations -/

/-- The `n` bytes of the little-endian representation of `v`. -/
def toBytesLE : Nat → Nat → List Nat
  | 0, _ => []
  | n + 1, v => v % 256 :: toBytesLE n (v / 256)

/-- The unsigned integer whose little-endian representation is the given bytes. -/
def ofBytesLE : List Nat → Nat
  | [] => 0
  | b :: bs => b % 256 + 256 * ofBytesLE bs

/-- Bytes of a `long` object holding `x` (two's complement). -/
def long_bytes (dm : DataModel) (x : Int) : List Nat :=
  toBytesLE (sizeof_long dm) (x % 2 ^ long_bits dm).toNat

/-- Bytes of a `double` object whose bit pattern is `bits`. -/
def double_bytes (dm : DataModel) (bits : Nat) : List Nat :=
  toBytesLE (sizeof_double dm) bits

/-! ## Checksum (`crc32.h`) -/

/-- One bit step of the reflected CRC-32 with polynomial `0xEDB88320`. -/
def crc32_step (crc : Nat) : Nat :=
  if crc % 2 = 1 then (crc / 2) ^^^ 0xEDB88320 else crc / 2

/-- Folding one byte into the CRC-32 register. -/
def crc32_byte (crc b : Nat) : Nat :=
  crc32_step (crc32_step (crc32_step (crc32_step (crc32_step (crc32_step (crc32_step
    (crc32_step (crc ^^^ (b % 256)))))))))

/-- Modelled from the spec: `crc32.cpp` is not among the sources and `crc32.h` calls the algorithm
internal; the spec accepts standard CRC-32 as a substitute for `compute`.  Only used to
instantiate statements that take the checksum functions as parameters. -/
def crc32_calc (arr : List Nat) : Nat :=
  (arr.foldl crc32_byte 0xFFFFFFFF) ^^^ 0xFFFFFFFF

/-- Modelled from the spec: `verify` recomputes the checksum over all bytes except the trailing
four and compares it with the value those four bytes hold. -/
def crc32_check (arr : List Nat) : Bool :=
  decide (4 ≤ arr.length
    ∧ ofBytesLE (arr.drop (arr.length - 4)) = crc32_calc (arr.take (arr.length - 4)) % 2 ^ 32)

/-! ## Calibration persistence (`HX711_setup.cpp`)

The checksum functions `crc32_calc` and `crc32_check` of the sources are parameters (`crc_calc`,
`crc_check`) of the two persistence functions: a buffer `(ptr, size)` is passed as its byte list. -/

/-- The loop of `EEPROM_save`: `EEPROM.update(i, ((byte *)data)[i])` for the bytes of `data` from
address `i` on. -/
def save_loop : List Nat → Nat → EEPROM → EEPROM
  | [], _, e => e
  | b :: bs, i, e => save_loop bs (i + 1) (EEPROM.update i b e)

/-- The three words `data[0..2]` that `EEPROM_save` builds, as bytes: `data[0]` is what
`*(unsigned long *)&scale` reads (the leading `sizeof(unsigned long)` bytes of the `double`),
`data[1]` the bytes of `offset`, `data[2]` the checksum of the first two words. -/
def save_record (crc_calc : List Nat → Nat) (dm : DataModel) (scale : Nat) (offset : Int) :
    List Nat :=
  let data0 := (double_bytes dm scale).take (sizeof_long dm)
  let data1 := long_bytes dm offset
  let data2 := toBytesLE (sizeof_long dm) (crc_calc (data0 ++ data1) % 2 ^ long_bits dm)
  data0 ++ data1 ++ data2

/-- The function `EEPROM_save`; `scale` is the bit pattern of the `double`. -/
def EEPROM_save (crc_calc : List Nat → Nat) (dm : DataModel) (scale : Nat) (offset : Int)
    (e : EEPROM) : Bool × EEPROM :=
  (true, save_loop (save_record crc_calc dm scale offset) 0 e)

/-- The loop of `EEPROM_load`: `n` bytes read from address `i` on. -/
def load_loop : Nat → Nat → EEPROM → List Nat × EEPROM
  | 0, _, e => ([], e)
  | n + 1, i, e =>
    ((EEPROM.read i e).1 :: (load_loop n (i + 1) (EEPROM.read i e).2).1,
      (load_loop n (i + 1) (EEPROM.read i e).2).2)

/-- The function `EEPROM_load`.  `scale` and `offset` are the values the caller's variables hold
before the call; the result lists the return value, the two variables after the call and the
storage.  `*((double *)&data[0])` reads `sizeof(double)` bytes from the start of the buffer,
`*((long *)&data[1])` the second word. -/
def EEPROM_load (crc_check : List Nat → Bool) (dm : DataModel) (scale : Nat) (offset : Int)
    (e : EEPROM) : Bool × Nat × Int × EEPROM :=
  let r := load_loop (3 * sizeof_long dm) 0 e
  if crc_check r.1 then
    (true, ofBytesLE (r.1.take (sizeof_double dm)),
      wrap_long dm (ofBytesLE ((r.1.drop (sizeof_long dm)).take (sizeof_long dm)) : Nat), r.2)
  else (false, scale, offset, r.2)

/-- The single-precision literal `93723.34f`: the nearest `float`, 93723.34375. -/
def default_scale : ℚ := 2999147 / 32

/-- The function `HX711_preload`.  `toFloat` is the conversion of a `double` bit pattern to the
`float` parameter of `set_scale`; `scale0` and `offset0` are what the uninitialised locals
hold. -/
def HX711_preload (crc_check : List Nat → Bool) (dm : DataModel) (toFloat : Nat → ℚ) (scale0 : Nat)
    (offset0 : Int) (loadcell : HX711) (e : EEPROM) : Bool × HX711 × EEPROM :=
  let r := EEPROM_load crc_check dm scale0 offset0 e
  if r.1 then
    (true, (set_offset r.2.2.1 (set_scale (toFloat r.2.1) loadcell).2).2, r.2.2.2)
  else
    (false, (set_offset 0x7EAE6E (set_scale default_scale loadcell).2).2, r.2.2.2)

/-- The record bytes at storage addresses `0 .. 3 * sizeof(unsigned long) - 1`. -/
def stored_record (dm : DataModel) (e : EEPROM) : List Nat :=
  (List.range (3 * sizeof_long dm)).map (fun a => e.cells a % 256)

/-! ## Rotation sensor (`hall_info.cpp`) -/

/-- The file-scope variables of `hall_info.cpp`.  The speed is an exact rational, or `none` once
a division by zero has made it non-finite (infinity or not-a-number). -/
structure HallState where
  m_speed : Option ℚ
  m_rotates : Nat
  m_t1 : Nat
  m_t2 : Nat
  m_started : Bool
  m_pin : Int

/-- The variables at program start: static storage is zero-initialised. -/
def hall_reset : HallState := ⟨some 0, 0, 0, 0, false, 0⟩

/-- One board call made by the rotation sensor: `pinMode(pin, INPUT_PULLUP)`, or
`attachInterrupt(digitalPinToInterrupt(pin), hall_isr, FALLING)`. -/
inductive BoardOp where
  | pinModePullup (pin : Int)
  | attachFalling (pin : Int)
deriving DecidableEq

/-- The board seen by the rotation sensor: `clock k` is what the `k`-th call of `millis()`
returns, `calls` counts the calls so far, `ops` lists the board calls made (oldest first). -/
structure Board where
  clock : Nat → Nat
  calls : Nat
  ops : List BoardOp

/-- Arduino `millis()`. -/
def millis (b : Board) : Nat × Board :=
  (b.clock b.calls, { b with calls := b.calls + 1 })

/-- The constructor `hall_info::hall_info(int pin)`. -/
def hall_info (pin : Int) (st : HallState) : HallState :=
  if !st.m_started then { st with m_pin := pin } else st

/-- The method `hall_info::start`. -/
def start (st : HallState) (b : Board) : Bool × HallState × Board :=
  if st.m_started then (false, st, b)
  else
    let b1 : Board := { b with ops := b.ops ++ [BoardOp.pinModePullup st.m_pin] }
    let st1 : HallState := { st with m_speed := some 0 }
    let st2 : HallState := { st1 with m_t1 := (millis b1).1 }
    let b2 := (millis b1).2
    let st3 : HallState := { st2 with m_t2 := (millis b2).1 }
    let b3 := (millis b2).2
    let b4 : Board := { b3 with ops := b3.ops ++ [BoardOp.attachFalling st3.m_pin] }
    (true, { st3 with m_started := true }, b4)

/-- Successive constructions `hall_info(p1)`, `hall_info(p2)`, ... in the given order. -/
def constructions : List Int → HallState → HallState
  | [], st => st
  | p :: ps, st => constructions ps (hall_info p st)

/-- The return values of `k` successive `start()` calls with the state they leave. -/
def starts : Nat → HallState → Board → List Bool × HallState × Board
  | 0, st, b => ([], st, b)
  | k + 1, st, b =>
    ((start st b).1 :: (starts k (start st b).2.1 (start st b).2.2).1,
      (starts k (start st b).2.1 (start st b).2.2).2)

/-! ## Filters (`library.cpp`) -/

/-- The function `l_apzveno_mp`: `a = dt / T; b = 1 - a; return a*x + b*yp`.  A zero `T` makes the
result non-finite (`none`). -/
def l_apzveno_mp (x yp dt T : ℚ) : Option ℚ :=
  match fdiv dt T with
  | none => none
  | some a => some (a * x + (1 - a) * yp)

/-- The loop `for (i = size - 1; i >= 1; i--)` of `l_average`, entered with index `i`: shifts
`arr[i - 1]` into `arr[i]` and adds it to `sum`. -/
def average_loop : Nat → (Nat → ℚ) → ℚ → (Nat → ℚ) × ℚ
  | 0, arr, sum => (arr, sum)
  | i + 1, arr, sum =>
    average_loop i (Function.update arr (i + 1) (arr i))
      (sum + (Function.update arr (i + 1) (arr i)) (i + 1))

/-- The function `l_average`; `arr k` is the cell `arr[k]` of the caller's array.  The result is
the returned mean and the array after the call.  With `size = 0` the index `size - 1` wraps
around and the loop runs out of the array: `none`. -/
def l_average (x : ℚ) (arr : Nat → ℚ) (size : Nat) : Option (ℚ × (Nat → ℚ)) :=
  if size = 0 then none
  else
    let r := average_loop (size - 1) arr 0
    let arr1 := Function.update r.1 0 x
    some ((r.2 + arr1 0) / (size : ℚ), arr1)

/-- The loop `for (i = 0; i < size; i++) arr[i] = init` with `n` iterations left. -/
def average_nu_loop (init : ℚ) : Nat → Nat → (Nat → ℚ) → (Nat → ℚ)
  | 0, _, arr => arr
  | n + 1, i, arr => average_nu_loop init n (i + 1) (Function.update arr i init)

/-- The function `l_average_nu`. -/
def l_average_nu (arr : Nat → ℚ) (size : Nat) (init : ℚ) : Nat → ℚ :=
  average_nu_loop init size 0 arr

/-- Successive calls `l_average(x, arr, size)` for the samples in the given order: the value the
last call returns (`none` when there is no call or `size = 0`) and the array it leaves. -/
def feed (size : Nat) : List ℚ → (Nat → ℚ) → Option ℚ → Option ℚ × (Nat → ℚ)
  | [], arr, last => (last, arr)
  | x :: xs, arr, _ =>
    match l_average x arr size with
    | none => (none, arr)
    | some r => feed size xs r.2 (some r.1)

/-! ## Serial line and number input (`library.cpp`) -/

/-- The serial port: `rx` holds the bytes that will arrive, `tx` the bytes written so far
(oldest first). -/
structure Serial where
  rx : List Nat
  tx : List Nat

/-- The function `l_getch`: waits for a byte and takes it; `none` when no byte ever arrives. -/
def l_getch (p : Serial) : Option (Nat × Serial) :=
  match p.rx with
  | [] => none
  | b :: rest => some (b, { p with rx := rest })

/-- Arduino `Serial.write(b)`. -/
def Serial.write (b : Nat) (p : Serial) : Serial :=
  { p with tx := p.tx ++ [b] }

/-- The locals of `l_scanf_double` that the loop updates. -/
structure ScanState where
  integer : Int
  frac : ℚ
  t : ℚ
  point : Bool
  sign : Bool
  error : Bool

/-- The single-precision literal `0.1f`: the `float` nearest to 1/10, which is
13421773 / 2^27 = 0.100000001490116119384765625. -/
def float_tenth : ℚ := 13421773 / 134217728

/-- The locals of `l_scanf_double` at loop entry: `integer = 0`, `frac = 0.0f`, `t = 0.1f`,
the three flags false. -/
def scan_init : ScanState := ⟨0, 0, float_tenth, false, false, false⟩

/-- The loop `while (true)` of `l_scanf_double`, left by `break`.  Every iteration takes one
byte, so `fuel` equal to the number of bytes that will arrive is never the reason for `none`.
Character codes: `'0'..'9'` = 48..57, `'.'` = 46, `','` = 44, `'-'` = 45, CR = 13, LF = 10. -/
def scan_loop (dm : DataModel) : Nat → ScanState → Serial → Option (ScanState × Serial)
  | 0, _, _ => none
  | fuel + 1, st, p =>
    match l_getch p with
    | none => none
    | some (b, p1) =>
      let p2 := Serial.write b p1
      if 48 ≤ b ∧ b ≤ 57 then
        if !st.point then
          scan_loop dm fuel
            { st with integer := wrap_long dm (st.integer * 10 + ((b - 48 : Nat) : Int)) } p2
        else
          scan_loop dm fuel
            { st with frac := st.frac + ((b - 48 : Nat) : ℚ) * st.t, t := st.t * float_tenth } p2
      else if b = 46 ∨ b = 44 then
        if !st.point then scan_loop dm fuel { st with point := true } p2
        else some ({ st with error := true }, p2)
      else if b = 45 then
        if st.integer ≠ 0 ∨ st.point = true then some ({ st with error := true }, p2)
        else if !st.sign then scan_loop dm fuel { st with sign := true } p2
        else some ({ st with error := true }, p2)
      else if b = 13 ∨ b = 10 then some (st, p2)
      else some ({ st with error := true }, p2)

/-- The function `l_scanf_double`.  The inner `Option` is the returned `double`: `none` is `NAN`.
The outer `none` is a call that never returns. -/
def l_scanf_double (dm : DataModel) (p : Serial) : Option (Option ℚ × Serial) :=
  match scan_loop dm p.rx.length scan_init p with
  | none => none
  | some (st, p1) =>
    if !st.error then
      let result : ℚ := (st.integer : ℚ) + st.frac
      some (some (if st.sign then result * (-1) else result), p1)
    else some (none, p1)

/-! ## Rotation sensor: the edge handler -/

/-- Difference `a - b` of two `unsigned long` values. -/
def ulong_sub (dm : DataModel) (a b : Nat) : Nat :=
  (((a : Int) - (b : Int)) % 2 ^ long_bits dm).toNat

/-- The interrupt handler `hall_isr`.  `m_rotates++` wraps at the width of `unsigned long`; a
zero divisor or a non-finite previous speed makes the new speed non-finite. -/
def hall_isr (dm : DataModel) (st : HallState) (b : Board) : HallState × Board :=
  if 1 ≤ ulong_sub dm (millis b).1 st.m_t2 then
    let st1 : HallState := { st with m_rotates := (st.m_rotates + 1) % 2 ^ long_bits dm }
    let st2 : HallState := { st1 with m_t1 := st1.m_t2 }
    let st3 : HallState := { st2 with m_t2 := (millis (millis b).2).1 }
    let velocity : Option ℚ :=
      (fdiv 1000 (ulong_sub dm st3.m_t2 st3.m_t1 : ℚ)).map (fun q => q * 60)
    let speed : Option ℚ :=
      match velocity, st3.m_speed with
      | some v, some yp => l_apzveno_mp v yp ((ulong_sub dm st3.m_t2 st3.m_t1 : ℚ) / 1000) 2
      | _, _ => none
    ({ st3 with m_speed := speed }, (millis (millis b).2).2)
  else (st, (millis b).2)

/-- The method `hall_info::get_speed`. -/
def get_speed (st : HallState) : Option ℚ := st.m_speed

/-- The method `hall_info::get_rotates`. -/
def get_rotates (st : HallState) : Nat := st.m_rotates

/-- What the program can do with the rotation sensor. -/
inductive HallAction where
  | construct (pin : Int)
  | start
  | isr
  | get_speed
  | get_rotates

/-- The effect of one action on the variables and the board; the two getters only read. -/
def hall_step (dm : DataModel) (a : HallAction) (p : HallState × Board) : HallState × Board :=
  match a with
  | HallAction.construct pin => (hall_info pin p.1, p.2)
  | HallAction.start => (start p.1 p.2).2
  | HallAction.isr => hall_isr dm p.1 p.2
  | HallAction.get_speed => p
  | HallAction.get_rotates => p

/-- The effect of a sequence of actions, in order. -/
def hall_run (dm : DataModel) : List HallAction → HallState × Board → HallState × Board
  | [], p => p
  | a :: as, p => hall_run dm as (hall_step dm a p)

/-- The claimed elapsed time `(now - t2) mod 2^32`. -/
def elapsed (now t2 : Nat) : Nat := (((now : Int) - (t2 : Int)) % 2 ^ 32).toNat

/-- A clock on which every handler invocation reads one value: call `2k` and call `2k + 1` of
`millis()` both return entry `k` of the list. -/
def clock_of (ts : List Nat) : Nat → Nat := fun k => ts.getD (k / 2) 0

/-- The handler invoked `n` times in a row. -/
def isr_run (dm : DataModel) : Nat → HallState × Board → HallState × Board
  | 0, p => p
  | n + 1, p => isr_run dm n (hall_isr dm p.1 p.2)

/-- Value of a sequence of decimal digits, most significant first: for `[d_1, ..., d_k]` the sum
of `d_i * 10^(k-i)`. -/
def decimal : List Nat → Nat
  | [] => 0
  | d :: ds => d * 10 ^ ds.length + decimal ds

/-- Value that `l_scanf_double` gives the digits after the separator: for `[f_1, ..., f_m]` the
sum of `f_j * c^j` with `c` the value of the literal `0.1f`. -/
def fraction : List Nat → ℚ
  | [] => 0
  | f :: fs => ((f : ℚ) + fraction fs) * float_tenth

/-- Character codes of a sequence of digits. -/
def digit_bytes (ds : List Nat) : List Nat := ds.map (fun d => 48 + d)

/-- Character codes of an optional fractional part: the separator and the digits after it. -/
def fraction_bytes : Option (Nat × List Nat) → List Nat
  | none => []
  | some (c, fs) => c :: digit_bytes fs

/-- Value of an optional fractional part. -/
def fraction_value : Option (Nat × List Nat) → ℚ
  | none => 0
  | some (_, fs) => fraction fs

/-- Character codes of a number as typed: optional `'-'`, digits, optional fractional part,
terminator. -/
def number_text (neg : Bool) (ds : List Nat) (fp : Option (Nat × List Nat)) (term : Nat) :
    List Nat :=
  (if neg then [45] else []) ++ (digit_bytes ds ++ (fraction_bytes fp ++ [term]))

/-! ## Arithmetic of the bit operations -/

set_option maxRecDepth 100000 in
theorem bitWrite_div (v i : Nat) (b : Bool) (hv : v < 256) (hi : i < 8) :
    bitWrite v i b / 2 ^ i = v / 2 ^ (i + 1) * 2 + b.toNat := by
  have h : ∀ v, v < 256 → ∀ i, i < 8 → ∀ b : Bool,
      bitWrite v i b / 2 ^ i = v / 2 ^ (i + 1) * 2 + b.toNat := by decide
  exact h v hv i hi b

theorem bitWrite_lt (v i : Nat) (b : Bool) : bitWrite v i b < 256 := by
  unfold bitWrite
  split <;> exact Nat.mod_lt _ (by decide)

theorem xor_high (i a c b : Nat) (hb : b < 2 ^ i) :
    (2 ^ i * a + b) ^^^ (2 ^ i * c) = 2 ^ i * (a ^^^ c) + b := by
  apply Nat.eq_of_testBit_eq
  intro j
  have h0 : (0 : Nat) < 2 ^ i := Nat.two_pow_pos i
  have hc : 2 ^ i * c = 2 ^ i * c + 0 := rfl
  rw [Nat.testBit_xor, Nat.testBit_mul_pow_two_add a hb, Nat.testBit_mul_pow_two_add (a ^^^ c) hb,
    hc, Nat.testBit_mul_pow_two_add c h0]
  by_cases hj : j < i
  · simp [hj]
  · simp [hj]

theorem pack_eq (c2 c1 c0 : Nat) (h2 : c2 < 256) (h1 : c1 < 256) (h0 : c0 < 256) :
    (((c2 ^^^ 0x80) <<< 16) ||| (c1 <<< 8) ||| c0) % 2 ^ 32
      = (c2 * 2 ^ 16 + c1 * 2 ^ 8 + c0) ^^^ 0x800000 := by
  have hx : c2 ^^^ 0x80 < 256 := Nat.xor_lt_two_pow (n := 8) h2 (by decide)
  have e1 : ((c2 ^^^ 0x80) <<< 16) ||| (c1 <<< 8) = 2 ^ 16 * (c2 ^^^ 0x80) + c1 * 2 ^ 8 := by
    rw [Nat.shiftLeft_eq, Nat.shiftLeft_eq, Nat.mul_comm (c2 ^^^ 0x80)]
    exact (Nat.mul_add_lt_is_or (by omega) _).symm
  have e2 : (2 ^ 16 * (c2 ^^^ 0x80) + c1 * 2 ^ 8) ||| c0
      = 2 ^ 8 * (2 ^ 8 * (c2 ^^^ 0x80) + c1) + c0 := by
    have : 2 ^ 16 * (c2 ^^^ 0x80) + c1 * 2 ^ 8 = 2 ^ 8 * (2 ^ 8 * (c2 ^^^ 0x80) + c1) := by ring
    rw [this]
    exact (Nat.mul_add_lt_is_or (by omega) _).symm
  have e3 : c2 * 2 ^ 16 + c1 * 2 ^ 8 + c0 = 2 ^ 16 * c2 + (c1 * 2 ^ 8 + c0) := by ring
  have e4 : (0x800000 : Nat) = 2 ^ 16 * 0x80 := by norm_num
  rw [e1, e2, e3, e4, xor_high 16 c2 0x80 (c1 * 2 ^ 8 + c0) (by omega)]
  have : 2 ^ 8 * (2 ^ 8 * (c2 ^^^ 0x80) + c1) + c0 < 2 ^ 32 := by omega
  rw [Nat.mod_eq_of_lt this]
  ring

theorem wrap_long_of_bounds (dm : DataModel) (x : Int) (h0 : -(2 ^ 31) ≤ x) (h1 : x < 2 ^ 31) :
    wrap_long dm x = x := by
  cases dm <;> simp only [wrap_long, long_bits, sizeof_long] <;> norm_num <;> omega


/-! ## The read transaction -/

theorem wireCode_append (a b : List Bool) :
    wireCode (a ++ b) = wireCode a * 2 ^ b.length + wireCode b := by
  induction a with
  | nil => simp [wireCode]
  | cons x xs ih =>
    have hl : (xs ++ b).length = xs.length + b.length := List.length_append xs b
    show x.toNat * 2 ^ (xs ++ b).length + wireCode (xs ++ b) = _
    rw [ih, hl, pow_add]
    simp only [wireCode]
    ring

theorem wireCode_lt (a : List Bool) : wireCode a < 2 ^ a.length := by
  induction a with
  | nil => simp [wireCode]
  | cons x xs ih =>
    simp only [wireCode, List.length_cons, pow_succ]
    cases x <;> simp <;> omega

theorem wait_ready_frame (s : HX711) (idle fuel : Nat) (tail : List Bool) (log : List PinOp)
    (g : Nat → Nat) (hf : idle < fuel) :
    wait_ready s fuel ⟨List.replicate idle true ++ false :: tail, log, g⟩
      = some ⟨tail, log ++ List.replicate (idle + 1) (PinOp.read s.DOUT), g⟩ := by
  induction idle generalizing fuel log with
  | zero =>
    obtain ⟨f, rfl⟩ : ∃ f, fuel = f + 1 := ⟨fuel - 1, by omega⟩
    simp [wait_ready, is_ready, digitalRead]
  | succ n ih =>
    obtain ⟨f, rfl⟩ : ∃ f, fuel = f + 1 := ⟨fuel - 1, by omega⟩
    simp only [List.replicate_succ, List.cons_append, wait_ready, is_ready, digitalRead,
      Bool.not_true]
    rw [ih f _ (by omega)]
    simp [List.replicate_succ]

theorem read_bits_eq (s : HX711) (j i : Nat) (bits rest : List Bool) (data : Nat → Nat)
    (log : List PinOp) (g : Nat → Nat) (hlen : bits.length = i) (hi : i ≤ 8)
    (hd : data j < 256) :
    read_bits s j i data ⟨bits ++ rest, log, g⟩
      = some (Function.update data j (data j / 2 ^ i * 2 ^ i + wireCode bits),
          ⟨rest, log ++ pulses (dataPulse s) i, g⟩) := by
  induction i generalizing bits data log with
  | zero =>
    have : bits = [] := List.length_eq_zero.mp hlen
    subst this
    simp [read_bits, wireCode, pulses]
  | succ n ih =>
    match bits, hlen with
    | b :: bs, hlen =>
      have hbs : bs.length = n := by simpa using hlen
      simp only [read_bits, digitalRead, digitalWrite, List.cons_append]
      rw [ih bs _ _ hbs (by omega) (by simp [bitWrite_lt])]
      simp only [Function.update_same, Function.update_idem]
      rw [bitWrite_div _ _ _ hd (by omega)]
      simp only [pulses, dataPulse, List.append_assoc, List.cons_append, List.nil_append,
        wireCode, hbs]
      have e : (data j / 2 ^ (n + 1) * 2 + b.toNat) * 2 ^ n + wireCode bs
          = data j / 2 ^ (n + 1) * 2 ^ (n + 1) + (b.toNat * 2 ^ n + wireCode bs) := by
        rw [pow_succ]
        ring
      rw [e]


theorem read_bits_byte (s : HX711) (j : Nat) (bits rest : List Bool) (data : Nat → Nat)
    (log : List PinOp) (g : Nat → Nat) (hlen : bits.length = 8) (hd : data j < 256) :
    read_bits s j 8 data ⟨bits ++ rest, log, g⟩
      = some (Function.update data j (wireCode bits),
          ⟨rest, log ++ pulses (dataPulse s) 8, g⟩) := by
  rw [read_bits_eq s j 8 bits rest data log g hlen (le_refl 8) hd]
  have : data j / 2 ^ 8 = 0 := Nat.div_eq_of_lt (by simpa using hd)
  rw [this]
  simp

theorem pulses_add (p : List PinOp) (a b : Nat) : pulses p a ++ pulses p b = pulses p (a + b) := by
  induction a with
  | zero => simp [pulses]
  | succ n ih =>
    rw [Nat.succ_add]
    simp only [pulses, List.append_assoc, ih]

theorem read_bytes_eq (s : HX711) (b2 b1 b0 rest : List Bool) (data : Nat → Nat)
    (log : List PinOp) (g : Nat → Nat) (h2 : b2.length = 8) (h1 : b1.length = 8)
    (h0 : b0.length = 8) (hd : ∀ k, data k < 256) :
    read_bytes s 3 data ⟨b2 ++ (b1 ++ (b0 ++ rest)), log, g⟩
      = some (Function.update (Function.update (Function.update data 2 (wireCode b2)) 1
            (wireCode b1)) 0 (wireCode b0),
          ⟨rest, log ++ pulses (dataPulse s) 24, g⟩) := by
  have hb : ∀ b : List Bool, b.length = 8 → wireCode b < 256 := by
    intro b h
    have := wireCode_lt b
    rw [h] at this
    simpa using this
  simp only [read_bytes]
  rw [read_bits_byte s 2 b2 _ data log g h2 (hd 2)]
  simp only []
  rw [read_bits_byte s 1 b1 _ _ _ g h1 (by simp [Function.update, hd 1])]
  simp only []
  rw [read_bits_byte s 0 b0 _ _ _ g h0 (by simp [Function.update, hd 0])]
  simp only [List.append_assoc, pulses_add]

theorem gain_pulses_eq (s : HX711) (k : Nat) (w : Wire) :
    gain_pulses s k w = { w with log := w.log ++ pulses (gainPulse s) k } := by
  induction k generalizing w with
  | zero => simp [gain_pulses, pulses]
  | succ n ih =>
    simp only [gain_pulses, ih, digitalWrite, pulses, gainPulse, List.append_assoc,
      List.cons_append, List.nil_append]

theorem split24 (bits : List Bool) (h : bits.length = 24) :
    ∃ b2 b1 b0 : List Bool, bits = b2 ++ (b1 ++ b0) ∧ b2.length = 8 ∧ b1.length = 8 ∧
      b0.length = 8 :=
  ⟨bits.take 8, (bits.drop 8).take 8, bits.drop 16, by
    rw [← List.drop_drop 8 8 bits, List.take_append_drop, List.take_append_drop],
    by simp [h], by simp [h], by simp [h]⟩

theorem read_eq (dm : DataModel) (s : HX711) (idle : Nat) (bits rest : List Bool)
    (log : List PinOp) (g : Nat → Nat) (hlen : bits.length = 24) :
    read dm s ⟨frame idle bits ++ rest, log, g⟩
      = some (((wireCode bits ^^^ 0x800000 : Nat) : Int),
          { s with m_last := ((wireCode bits ^^^ 0x800000 : Nat) : Int) },
          ⟨rest, log ++ (List.replicate (idle + 1) (PinOp.read s.DOUT)
            ++ pulses (dataPulse s) 24 ++ pulses (gainPulse s) s.GAIN), g⟩) := by
  obtain ⟨b2, b1, b0, rfl, h2, h1, h0⟩ := split24 bits hlen
  have hb : ∀ b : List Bool, b.length = 8 → wireCode b < 256 := by
    intro b h
    have := wireCode_lt b
    rw [h] at this
    simpa using this
  have hcode : wireCode (b2 ++ (b1 ++ b0)) = wireCode b2 * 2 ^ 16 + wireCode b1 * 2 ^ 8
      + wireCode b0 := by
    rw [wireCode_append, wireCode_append, List.length_append, h1, h0]
    ring
  have hlt : wireCode (b2 ++ (b1 ++ b0)) ^^^ 0x800000 < 2 ^ 24 :=
    Nat.xor_lt_two_pow (by have := wireCode_lt (b2 ++ (b1 ++ b0)); rwa [hlen] at this)
      (by decide)
  unfold read
  simp only [frame, List.append_assoc, List.cons_append]
  rw [wait_ready_frame s idle _ _ log g (by simp)]
  simp only []
  rw [read_bytes_eq s b2 b1 b0 rest _ _ g h2 h1 h0 (fun k => Nat.mod_lt _ (by decide))]
  simp only [gain_pulses_eq, Function.update]
  simp only [OfNat.ofNat_ne_zero, OfNat.ofNat_ne_one, one_ne_zero, ↓reduceDIte, ↓reduceIte,
    eq_rec_constant, dite_eq_ite]
  rw [pack_eq _ _ _ (hb b2 h2) (hb b1 h1) (hb b0 h0), ← hcode,
    wrap_long_of_bounds dm _ (by omega) (by omega)]
  simp only [List.append_assoc]


theorem wireCode_toBits (n v : Nat) : wireCode (toBits n v) = v % 2 ^ n := by
  induction n with
  | zero => simp [toBits, wireCode, Nat.mod_one]
  | succ k ih =>
    have hl : ∀ m, (toBits m v).length = m := by
      intro m
      induction m with
      | zero => rfl
      | succ m ihm => simp [toBits, ihm]
    simp only [toBits, wireCode, ih, hl, Nat.toNat_testBit]
    rw [Nat.mod_pow_succ]
    ring

theorem toBits_length (n v : Nat) : (toBits n v).length = n := by
  induction n with
  | zero => rfl
  | succ m ihm => simp [toBits, ihm]

theorem encode_length (r : Nat) : (encode r).length = 24 := toBits_length 24 _

theorem decode_encode (r : Nat) (hr : r < 2 ^ 24) : wireCode (encode r) ^^^ 0x800000 = r := by
  have hlt : r ^^^ 0x800000 < 2 ^ 24 := Nat.xor_lt_two_pow hr (by decide)
  rw [encode, wireCode_toBits, Nat.mod_eq_of_lt hlt, Nat.xor_assoc, Nat.xor_self, Nat.xor_zero]

theorem read_code (dm : DataModel) (s : HX711) (idle r : Nat) (rest : List Bool)
    (log : List PinOp) (g : Nat → Nat) (hr : r < 2 ^ 24) :
    read dm s ⟨frame idle (encode r) ++ rest, log, g⟩
      = some ((r : Int), { s with m_last := (r : Int) },
          ⟨rest, log ++ transaction s idle, g⟩) := by
  rw [read_eq dm s idle (encode r) rest log g (encode_length r), decode_encode r hr]
  rfl

theorem transactions_m_last (s : HX711) (m : Int) (cs : List (Nat × Nat)) :
    transactions { s with m_last := m } cs = transactions s cs := by
  induction cs with
  | nil => rfl
  | cons c cs ih =>
    simp only [transactions, ih]
    rfl

theorem read_sum_script (dm : DataModel) (s : HX711) (cs : List (Nat × Nat)) (acc : Int)
    (rest : List Bool) (log : List PinOp) (g : Nat → Nat) (hcs : ∀ c ∈ cs, c.2 < 2 ^ 24) :
    ∃ m : Int, read_sum dm cs.length acc s ⟨script cs ++ rest, log, g⟩
      = some (long_sum dm acc (cs.map Prod.snd), { s with m_last := m },
          ⟨rest, log ++ transactions s cs, g⟩) := by
  induction cs generalizing acc s log with
  | nil => exact ⟨s.m_last, by simp [read_sum, script, long_sum, transactions]⟩
  | cons c cs ih =>
    have hc : c.2 < 2 ^ 24 := hcs c (List.mem_cons_self _ _)
    have hcs1 : ∀ c1 ∈ cs, c1.2 < 2 ^ 24 := fun c1 h => hcs c1 (List.mem_cons_of_mem _ h)
    obtain ⟨m, hm⟩ := ih { s with m_last := (c.2 : Int) } (wrap_long dm (acc + (c.2 : Int)))
      (log ++ transaction s c.1) hcs1
    refine ⟨m, ?_⟩
    simp only [List.length_cons, read_sum, script, List.append_assoc]
    rw [read_code dm s c.1 c.2 _ log g hc]
    simp only []
    rw [hm]
    simp only [List.map_cons, long_sum, transactions, List.append_assoc, transactions_m_last]

theorem read_average_script (dm : DataModel) (s : HX711) (cs : List (Nat × Nat))
    (rest : List Bool) (log : List PinOp) (g : Nat → Nat) (hcs : ∀ c ∈ cs, c.2 < 2 ^ 24)
    (hn : cs ≠ []) :
    read_average dm cs.length s ⟨script cs ++ rest, log, g⟩
      = some (Int.tdiv (long_sum dm 0 (cs.map Prod.snd)) (cs.length : Int),
          { s with m_last := Int.tdiv (long_sum dm 0 (cs.map Prod.snd)) (cs.length : Int) },
          ⟨rest, log ++ transactions s cs, g⟩) := by
  obtain ⟨m, hm⟩ := read_sum_script dm s cs 0 rest log g hcs
  unfold read_average
  rw [hm]
  have : cs.length ≠ 0 := fun h => hn (List.length_eq_zero.mp h)
  simp only [this, ↓reduceIte]


theorem wrap_long_of_range (dm : DataModel) (x : Int) (h0 : LONG_MIN dm ≤ x)
    (h1 : x ≤ LONG_MAX dm) : wrap_long dm x = x := by
  cases dm <;> simp only [wrap_long, long_bits, sizeof_long, LONG_MIN, LONG_MAX] at * <;>
    norm_num at * <;> omega

theorem long_max_ge (dm : DataModel) : (2147483647 : Int) ≤ LONG_MAX dm := by
  cases dm <;> simp only [LONG_MAX, long_bits, sizeof_long] <;> norm_num

theorem long_min_le (dm : DataModel) : LONG_MIN dm ≤ (-2147483648 : Int) := by
  cases dm <;> simp only [LONG_MIN, long_bits, sizeof_long] <;> norm_num

theorem long_sum_exact (dm : DataModel) (rs : List Nat) (acc : Int) (h0 : 0 ≤ acc)
    (h1 : acc + ((rs.sum : Nat) : Int) ≤ LONG_MAX dm) :
    long_sum dm acc rs = acc + ((rs.sum : Nat) : Int) := by
  induction rs generalizing acc with
  | nil => simp [long_sum]
  | cons r rs ih =>
    simp only [List.sum_cons, Nat.cast_add] at h1
    have hr : (0 : Int) ≤ (r : Int) := Int.ofNat_nonneg r
    have hs : (0 : Int) ≤ ((rs.sum : Nat) : Int) := Int.ofNat_nonneg _
    have hmin := long_min_le dm
    have hw : wrap_long dm (acc + (r : Int)) = acc + (r : Int) :=
      wrap_long_of_range dm _ (by omega) (by omega)
    simp only [long_sum, hw, List.sum_cons, Nat.cast_add]
    rw [ih (acc + (r : Int)) (by omega) (by omega)]
    ring

theorem sum_le_of_codes (rs : List Nat) (h : ∀ r ∈ rs, r < 2 ^ 24) :
    rs.sum ≤ rs.length * (2 ^ 24 - 1) := by
  induction rs with
  | nil => simp
  | cons r rs ih =>
    have hr : r < 2 ^ 24 := h r (List.mem_cons_self _ _)
    have := ih (fun x hx => h x (List.mem_cons_of_mem _ hx))
    simp only [List.sum_cons, List.length_cons]
    rw [Nat.add_mul]
    omega

/-- C1: `HX711::read` on a device that becomes ready after `idle` busy polls and then shifts out
the 24 bits `bits` (first sampled bit = bit 23) returns `wireCode bits XOR 0x800000`, stores the
same value in `m_last`, consumes exactly that conversion from the wire, and the value lies in
`[0, 2^24)`.  End to end: the sampled code `0x7FFFFF` is read as `0xFFFFFF`, and with offset 0
and scale 1 `get_units(1)` is 16777215. -/
theorem read_decodes_wire_bits (dm : DataModel) (s : HX711) (idle : Nat) (bits rest : List Bool)
    (log : List PinOp) (g : Nat → Nat) (hlen : bits.length = 24) :
    read dm s ⟨frame idle bits ++ rest, log, g⟩
        = some (((wireCode bits ^^^ 0x800000 : Nat) : Int),
            { s with m_last := ((wireCode bits ^^^ 0x800000 : Nat) : Int) },
            ⟨rest, log ++ transaction s idle, g⟩)
      ∧ (0 : Int) ≤ ((wireCode bits ^^^ 0x800000 : Nat) : Int)
      ∧ ((wireCode bits ^^^ 0x800000 : Nat) : Int) < 2 ^ 24
      ∧ wireCode (false :: List.replicate 23 true) = 0x7FFFFF
      ∧ (read dm s ⟨frame idle (false :: List.replicate 23 true) ++ rest, log, g⟩).map
          (fun r => r.1) = some 0xFFFFFF
      ∧ (get_units dm 1 { s with OFFSET := 0, SCALE := 1 }
          ⟨frame idle (false :: List.replicate 23 true) ++ rest, log, g⟩).map
          (fun r => r.1) = some (some 16777215) := by
  have hlt : wireCode bits ^^^ 0x800000 < 2 ^ 24 :=
    Nat.xor_lt_two_pow (by have := wireCode_lt bits; rwa [hlen] at this) (by decide)
  have henc : (false :: List.replicate 23 true) = encode 0xFFFFFF := by decide
  refine ⟨read_eq dm s idle bits rest log g hlen, Int.ofNat_nonneg _, by exact_mod_cast hlt,
    by decide, ?_, ?_⟩
  · rw [henc, read_code dm s idle _ rest log g (by decide)]
    rfl
  · have h := read_average_script dm { s with OFFSET := 0, SCALE := 1 } [(idle, 0xFFFFFF)] rest
      log g (by simp) (by simp)
    simp only [script, List.append_nil, List.length_singleton, List.map_cons, List.map_nil,
      long_sum] at h
    have hw : wrap_long dm (0 + ((0xFFFFFF : Nat) : Int)) = 16777215 :=
      wrap_long_of_bounds dm _ (by norm_num) (by norm_num)
    rw [hw] at h
    rw [henc]
    simp only [get_units, get_value]
    rw [h]
    have hw2 : wrap_long dm (Int.tdiv 16777215 ((1 : Nat) : Int) - 0) = 16777215 := by
      have : Int.tdiv 16777215 ((1 : Nat) : Int) - 0 = 16777215 := by decide
      rw [this]
      exact wrap_long_of_bounds dm _ (by norm_num) (by norm_num)
    simp only [hw2, Option.map_some', fdiv]
    norm_num

theorem read_decodes_wire_bits_witness :
    (false :: List.replicate 23 true).length = 24
      ∧ read DataModel.avr ⟨3, 2, 1, 0, 1, 0⟩
          ⟨frame 0 (false :: List.replicate 23 true) ++ [], [], fun _ => 0⟩
        = some (((wireCode (false :: List.replicate 23 true) ^^^ 0x800000 : Nat) : Int),
            { (⟨3, 2, 1, 0, 1, 0⟩ : HX711) with
                m_last := ((wireCode (false :: List.replicate 23 true) ^^^ 0x800000 : Nat) : Int) },
            ⟨[], [] ++ transaction ⟨3, 2, 1, 0, 1, 0⟩ 0, fun _ => 0⟩) :=
  ⟨by decide, (read_decodes_wire_bits DataModel.avr ⟨3, 2, 1, 0, 1, 0⟩ 0
    (false :: List.replicate 23 true) [] [] (fun _ => 0) (by decide)).1⟩


theorem tdiv_natCast (a b : Nat) : Int.tdiv (a : Int) (b : Int) = ((a / b : Nat) : Int) := by
  rw [Int.tdiv_eq_ediv (Int.ofNat_nonneg a) (Int.ofNat_nonneg b)]
  norm_cast

theorem transactions_congr (s t : HX711) (h1 : t.PD_SCK = s.PD_SCK) (h2 : t.DOUT = s.DOUT)
    (h3 : t.GAIN = s.GAIN) (cs : List (Nat × Nat)) : transactions t cs = transactions s cs := by
  induction cs with
  | nil => rfl
  | cons c cs ih => simp only [transactions, transaction, dataPulse, gainPulse, ih, h1, h2, h3]

theorem codes_const (cs : List (Nat × Nat)) (r : Nat) (h : ∀ c ∈ cs, c.2 = r) :
    cs.map Prod.snd = List.replicate cs.length r := by
  induction cs with
  | nil => rfl
  | cons c cs ih =>
    have hc : c.2 = r := h c (List.mem_cons_self _ _)
    simp only [List.map_cons, List.length_cons, List.replicate_succ, hc,
      ih (fun x hx => h x (List.mem_cons_of_mem _ hx))]

theorem wrap_add_wrap (dm : DataModel) (x r : Int) :
    wrap_long dm (wrap_long dm x + r) = wrap_long dm (x + r) := by
  cases dm <;> simp only [wrap_long, long_bits, sizeof_long] <;> norm_num <;> omega

theorem long_sum_wrap (dm : DataModel) (rs : List Nat) (acc : Int) :
    long_sum dm (wrap_long dm acc) rs = wrap_long dm (acc + ((rs.sum : Nat) : Int)) := by
  induction rs generalizing acc with
  | nil => simp [long_sum]
  | cons r rs ih =>
    simp only [long_sum, wrap_add_wrap, ih, List.sum_cons, Nat.cast_add]
    congr 1
    ring

theorem wrap_long_zero (dm : DataModel) : wrap_long dm 0 = 0 :=
  wrap_long_of_bounds dm 0 (by norm_num) (by norm_num)

theorem read_average_wrapped (dm : DataModel) (s : HX711) (cs : List (Nat × Nat))
    (rest : List Bool) (log : List PinOp) (g : Nat → Nat) (hcs : ∀ c ∈ cs, c.2 < 2 ^ 24)
    (hne : cs ≠ []) :
    read_average dm cs.length s ⟨script cs ++ rest, log, g⟩
      = some (Int.tdiv (wrap_long dm (((cs.map Prod.snd).sum : Nat) : Int)) (cs.length : Int),
          { s with m_last :=
              Int.tdiv (wrap_long dm (((cs.map Prod.snd).sum : Nat) : Int)) (cs.length : Int) },
          ⟨rest, log ++ transactions s cs, g⟩) := by
  have h := long_sum_wrap dm (cs.map Prod.snd) 0
  rw [wrap_long_zero, zero_add] at h
  rw [read_average_script dm s cs rest log g hcs hne, h]

theorem read_average_saturated :
    read_average DataModel.avr 255 ⟨3, 2, 1, 0, 1, 0⟩
        ⟨script (List.replicate 255 (0, 0xFFFFFF)), [], fun _ => 0⟩
      = some (-65794, { (⟨3, 2, 1, 0, 1, 0⟩ : HX711) with m_last := -65794 },
          ⟨[], [] ++ transactions ⟨3, 2, 1, 0, 1, 0⟩ (List.replicate 255 (0, 0xFFFFFF)),
            fun _ => 0⟩) := by
  have h := read_average_wrapped DataModel.avr ⟨3, 2, 1, 0, 1, 0⟩
    (List.replicate 255 (0, 0xFFFFFF)) [] [] (fun _ => 0)
    (by intro c hc; rw [List.eq_of_mem_replicate hc]; decide) (by decide)
  rw [List.append_nil, List.length_replicate] at h
  have hq : Int.tdiv (wrap_long DataModel.avr
      ((((List.replicate 255 ((0 : Nat), (0xFFFFFF : Nat))).map Prod.snd).sum : Nat) : Int))
      ((255 : Nat) : Int) = -65794 := by
    rw [List.map_replicate, List.sum_replicate]
    decide
  rw [hq] at h
  exact h

/-- C4 (refuted as stated): on a 32-bit `long` (AVR), `read_average(255)` with every read
delivering the raw code `0xFFFFFF` returns -65794, while the truncating mean of the 255 codes is
`0xFFFFFF` = 16777215. -/
theorem read_average_overflow_counterexample :
    (read_average DataModel.avr 255 ⟨3, 2, 1, 0, 1, 0⟩
        ⟨script (List.replicate 255 (0, 0xFFFFFF)), [], fun _ => 0⟩).map (fun r => r.1)
      = some (-65794)
    ∧ (List.replicate 255 0xFFFFFF).sum / 255 = 16777215
    ∧ (read_average DataModel.avr 255 ⟨3, 2, 1, 0, 1, 0⟩
        ⟨script (List.replicate 255 (0, 0xFFFFFF)), [], fun _ => 0⟩).map (fun r => r.1)
      ≠ some (((List.replicate 255 0xFFFFFF).sum / 255 : Nat) : Int) := by
  have hm : (List.replicate 255 0xFFFFFF).sum / 255 = 16777215 := by
    rw [List.sum_replicate]
    decide
  rw [read_average_saturated, hm]
  exact ⟨rfl, rfl, by decide⟩

/-- C4 (amended): `HX711::read_average(n)` for a byte `n` with `1 <= n <= 255` on `n` successive
conversions with raw codes in `[0, 2^24)` performs exactly the `n` read transactions of those
conversions, returns a value and stores that same value in `m_last`; whenever the sum of the
codes fits the `long` accumulator (sum `<= LONG_MAX`), which is always the case for `n <= 128`
and for a 64-bit `long`, the value returned is the truncating integer mean
`(r_1 + ... + r_n) div n`. -/
theorem read_average_truncating_mean (dm : DataModel) (s : HX711) (cs : List (Nat × Nat))
    (rest : List Bool) (log : List PinOp) (g : Nat → Nat) (h1 : 1 ≤ cs.length)
    (h2 : cs.length ≤ 255) (hcs : ∀ c ∈ cs, c.2 < 2 ^ 24) :
    ∃ avg : Int,
      read_average dm cs.length s ⟨script cs ++ rest, log, g⟩
          = some (avg, { s with m_last := avg }, ⟨rest, log ++ transactions s cs, g⟩)
        ∧ ((((cs.map Prod.snd).sum : Nat) : Int) ≤ LONG_MAX dm →
            avg = (((cs.map Prod.snd).sum / cs.length : Nat) : Int))
        ∧ (cs.length ≤ 128 ∨ dm = DataModel.lp64 →
            (((cs.map Prod.snd).sum : Nat) : Int) ≤ LONG_MAX dm) := by
  have hne : cs ≠ [] := by
    intro h
    rw [h] at h1
    simp at h1
  refine ⟨_, read_average_wrapped dm s cs rest log g hcs hne, ?_, ?_⟩
  · intro hfit
    have hmin := long_min_le dm
    have h0 : (0 : Int) ≤ (((cs.map Prod.snd).sum : Nat) : Int) := Int.ofNat_nonneg _
    rw [wrap_long_of_range dm _ (by omega) hfit, tdiv_natCast]
  · intro h
    have hsum := sum_le_of_codes (cs.map Prod.snd) (by
      intro r hr
      obtain ⟨c, hc, rfl⟩ := List.mem_map.mp hr
      exact hcs c hc)
    rw [List.length_map] at hsum
    rcases h with h | h
    · have := long_max_ge dm
      have h3 : cs.length * (2 ^ 24 - 1) ≤ 128 * (2 ^ 24 - 1) := Nat.mul_le_mul_right _ h
      have h4 : (((cs.map Prod.snd).sum : Nat) : Int) ≤ ((128 * (2 ^ 24 - 1) : Nat) : Int) :=
        Int.ofNat_le.mpr (le_trans hsum h3)
      norm_num at h4
      omega
    · subst h
      have h3 : cs.length * (2 ^ 24 - 1) ≤ 255 * (2 ^ 24 - 1) := Nat.mul_le_mul_right _ h2
      have h4 : (((cs.map Prod.snd).sum : Nat) : Int) ≤ ((255 * (2 ^ 24 - 1) : Nat) : Int) :=
        Int.ofNat_le.mpr (le_trans hsum h3)
      simp only [LONG_MAX, long_bits, sizeof_long]
      norm_num at h4 ⊢
      omega

theorem read_average_truncating_mean_witness :
    1 ≤ [(0, 10), (2, 21)].length ∧ [(0, 10), (2, 21)].length ≤ 255
      ∧ (∀ c ∈ [(0, 10), (2, 21)], c.2 < 2 ^ 24)
      ∧ ∃ avg : Int,
        read_average DataModel.avr [(0, 10), (2, 21)].length ⟨3, 2, 1, 0, 1, 0⟩
            ⟨script [(0, 10), (2, 21)] ++ [], [], fun _ => 0⟩
          = some (avg, { (⟨3, 2, 1, 0, 1, 0⟩ : HX711) with m_last := avg },
              ⟨[], [] ++ transactions ⟨3, 2, 1, 0, 1, 0⟩ [(0, 10), (2, 21)], fun _ => 0⟩)
        ∧ (((([(0, 10), (2, 21)].map Prod.snd).sum : Nat) : Int) ≤ LONG_MAX DataModel.avr →
            avg = ((([(0, 10), (2, 21)].map Prod.snd).sum / [(0, 10), (2, 21)].length : Nat)
              : Int))
        ∧ ([(0, 10), (2, 21)].length ≤ 128 ∨ DataModel.avr = DataModel.lp64 →
            ((([(0, 10), (2, 21)].map Prod.snd).sum : Nat) : Int) ≤ LONG_MAX DataModel.avr) :=
  ⟨by decide, by decide, by decide,
    read_average_truncating_mean DataModel.avr ⟨3, 2, 1, 0, 1, 0⟩ [(0, 10), (2, 21)] [] []
      (fun _ => 0) (by decide) (by decide) (by decide)⟩

/-- C5 (refuted as stated): on a 32-bit `long` (AVR), `tare(255)` with every read delivering the
raw code `0xFFFFFF` overflows the accumulator and returns -65794, not `0xFFFFFF`. -/
theorem tare_overflow_counterexample :
    (tare DataModel.avr 255 ⟨3, 2, 1, 0, 1, 0⟩
        ⟨script (List.replicate 255 (0, 0xFFFFFF)), [], fun _ => 0⟩).map (fun r => r.1)
      = some (-65794)
    ∧ (tare DataModel.avr 255 ⟨3, 2, 1, 0, 1, 0⟩
        ⟨script (List.replicate 255 (0, 0xFFFFFF)), [], fun _ => 0⟩).map (fun r => r.1)
      ≠ some 0xFFFFFF := by
  have ht : (tare DataModel.avr 255 ⟨3, 2, 1, 0, 1, 0⟩
      ⟨script (List.replicate 255 (0, 0xFFFFFF)), [], fun _ => 0⟩).map (fun r => r.1)
      = some (-65794) := by
    simp only [tare, read_average_saturated, Option.map_some']
  refine ⟨ht, ?_⟩
  rw [ht]
  decide

/-- C5 (amended): for every `n >= 1` and every raw code `r` in `[0, 2^24)`, if every read
delivers `r` then `tare(n)` returns the value that `read_average(n)` returns on that input,
sets `OFFSET` to that value and leaves `SCALE` unchanged, and an immediately following
`get_value(n)` returns exactly 0; the value returned and stored is `r` whenever `n * r` fits
the `long` accumulator (`n * r <= LONG_MAX`), which is always the case for `n <= 128` and, for
a byte `n`, for a 64-bit `long`. -/
theorem tare_zeroes_reading (dm : DataModel) (s : HX711) (r : Nat) (cs1 cs2 : List (Nat × Nat))
    (rest : List Bool) (log : List PinOp) (g : Nat → Nat) (h1 : 1 ≤ cs1.length)
    (hlen : cs2.length = cs1.length) (hr : r < 2 ^ 24)
    (hc1 : ∀ c ∈ cs1, c.2 = r) (hc2 : ∀ c ∈ cs2, c.2 = r) :
    ∃ a : Int,
      read_average dm cs1.length s ⟨script cs1 ++ (script cs2 ++ rest), log, g⟩
          = some (a, { s with m_last := a },
              ⟨script cs2 ++ rest, log ++ transactions s cs1, g⟩)
        ∧ tare dm cs1.length s ⟨script cs1 ++ (script cs2 ++ rest), log, g⟩
          = some (a, { s with OFFSET := a, m_last := a },
              ⟨script cs2 ++ rest, log ++ transactions s cs1, g⟩)
        ∧ get_value dm cs1.length { s with OFFSET := a, m_last := a }
            ⟨script cs2 ++ rest, log ++ transactions s cs1, g⟩
          = some (0, { s with OFFSET := a, m_last := a },
              ⟨rest, log ++ transactions s cs1 ++ transactions s cs2, g⟩)
        ∧ (((cs1.length * r : Nat) : Int) ≤ LONG_MAX dm → a = (r : Int))
        ∧ (cs1.length ≤ 128 ∨ (dm = DataModel.lp64 ∧ cs1.length ≤ 255) →
            ((cs1.length * r : Nat) : Int) ≤ LONG_MAX dm) := by
  have hmin := long_min_le dm
  have hmax := long_max_ge dm
  have hne1 : cs1 ≠ [] := by
    intro h
    rw [h] at h1
    simp at h1
  have hne2 : cs2 ≠ [] := by
    intro h
    rw [h] at hlen
    simp at hlen
    omega
  have hb1 : ∀ c ∈ cs1, c.2 < 2 ^ 24 := fun c h => by rw [hc1 c h]; exact hr
  have hb2 : ∀ c ∈ cs2, c.2 < 2 ^ 24 := fun c h => by rw [hc2 c h]; exact hr
  have hsum1 : (cs1.map Prod.snd).sum = cs1.length * r := by
    rw [codes_const cs1 r hc1, List.sum_replicate, smul_eq_mul]
  have hsum2 : (cs2.map Prod.snd).sum = cs1.length * r := by
    rw [codes_const cs2 r hc2, List.sum_replicate, smul_eq_mul, hlen]
  have hra := read_average_wrapped dm s cs1 (script cs2 ++ rest) log g hb1 hne1
  rw [hsum1] at hra
  refine ⟨Int.tdiv (wrap_long dm ((cs1.length * r : Nat) : Int)) (cs1.length : Int), hra, ?_,
    ?_, ?_, ?_⟩
  · simp only [tare, hra, set_offset]
  · have ht : transactions
        { s with OFFSET := Int.tdiv (wrap_long dm ((cs1.length * r : Nat) : Int))
                    (cs1.length : Int),
                 m_last := Int.tdiv (wrap_long dm ((cs1.length * r : Nat) : Int))
                    (cs1.length : Int) } cs2
        = transactions s cs2 :=
      transactions_congr s
        { s with OFFSET := Int.tdiv (wrap_long dm ((cs1.length * r : Nat) : Int))
                    (cs1.length : Int),
                 m_last := Int.tdiv (wrap_long dm ((cs1.length * r : Nat) : Int))
                    (cs1.length : Int) } rfl rfl rfl cs2
    have h := read_average_wrapped dm
      { s with OFFSET := Int.tdiv (wrap_long dm ((cs1.length * r : Nat) : Int))
                  (cs1.length : Int),
               m_last := Int.tdiv (wrap_long dm ((cs1.length * r : Nat) : Int))
                  (cs1.length : Int) } cs2
      rest (log ++ transactions s cs1) g hb2 hne2
    rw [hsum2, hlen] at h
    simp only [get_value, h, sub_self, ht, List.append_assoc]
    rw [wrap_long_of_range dm 0 (by omega) (by omega)]
  · intro hfit
    have h0 : (0 : Int) ≤ ((cs1.length * r : Nat) : Int) := Int.ofNat_nonneg _
    rw [wrap_long_of_range dm _ (by omega) hfit, tdiv_natCast,
      Nat.mul_div_cancel_left r (by omega)]
  · intro h
    rcases h with h | ⟨h, h2⟩
    · have h3 : cs1.length * r ≤ 128 * (2 ^ 24 - 1) :=
        Nat.mul_le_mul h (by omega)
      have h4 : ((cs1.length * r : Nat) : Int) ≤ ((128 * (2 ^ 24 - 1) : Nat) : Int) :=
        Int.ofNat_le.mpr h3
      norm_num at h4
      omega
    · subst h
      have h3 : cs1.length * r ≤ 255 * (2 ^ 24 - 1) :=
        Nat.mul_le_mul h2 (by omega)
      have h4 : ((cs1.length * r : Nat) : Int) ≤ ((255 * (2 ^ 24 - 1) : Nat) : Int) :=
        Int.ofNat_le.mpr h3
      simp only [LONG_MAX, long_bits, sizeof_long]
      norm_num at h4 ⊢
      omega

theorem tare_zeroes_reading_witness :
    1 ≤ [(0, 5), (1, 5)].length
      ∧ [(3, 5), (0, 5)].length = [(0, 5), (1, 5)].length ∧ 5 < 2 ^ 24
      ∧ (∀ c ∈ [(0, 5), (1, 5)], c.2 = 5) ∧ (∀ c ∈ [(3, 5), (0, 5)], c.2 = 5)
      ∧ ∃ a : Int,
        read_average DataModel.avr [(0, 5), (1, 5)].length ⟨3, 2, 1, 0, 1, 0⟩
            ⟨script [(0, 5), (1, 5)] ++ (script [(3, 5), (0, 5)] ++ []), [], fun _ => 0⟩
          = some (a, { (⟨3, 2, 1, 0, 1, 0⟩ : HX711) with m_last := a },
              ⟨script [(3, 5), (0, 5)] ++ [],
                [] ++ transactions ⟨3, 2, 1, 0, 1, 0⟩ [(0, 5), (1, 5)], fun _ => 0⟩)
        ∧ tare DataModel.avr [(0, 5), (1, 5)].length ⟨3, 2, 1, 0, 1, 0⟩
            ⟨script [(0, 5), (1, 5)] ++ (script [(3, 5), (0, 5)] ++ []), [], fun _ => 0⟩
          = some (a, { (⟨3, 2, 1, 0, 1, 0⟩ : HX711) with OFFSET := a, m_last := a },
              ⟨script [(3, 5), (0, 5)] ++ [],
                [] ++ transactions ⟨3, 2, 1, 0, 1, 0⟩ [(0, 5), (1, 5)], fun _ => 0⟩)
        ∧ get_value DataModel.avr [(0, 5), (1, 5)].length
            { (⟨3, 2, 1, 0, 1, 0⟩ : HX711) with OFFSET := a, m_last := a }
            ⟨script [(3, 5), (0, 5)] ++ [],
              [] ++ transactions ⟨3, 2, 1, 0, 1, 0⟩ [(0, 5), (1, 5)], fun _ => 0⟩
          = some (0, { (⟨3, 2, 1, 0, 1, 0⟩ : HX711) with OFFSET := a, m_last := a },
              ⟨[], [] ++ transactions ⟨3, 2, 1, 0, 1, 0⟩ [(0, 5), (1, 5)]
                ++ transactions ⟨3, 2, 1, 0, 1, 0⟩ [(3, 5), (0, 5)], fun _ => 0⟩)
        ∧ ((([(0, 5), (1, 5)].length * 5 : Nat) : Int) ≤ LONG_MAX DataModel.avr →
            a = ((5 : Nat) : Int))
        ∧ ([(0, 5), (1, 5)].length ≤ 128
            ∨ (DataModel.avr = DataModel.lp64 ∧ [(0, 5), (1, 5)].length ≤ 255) →
            (([(0, 5), (1, 5)].length * 5 : Nat) : Int) ≤ LONG_MAX DataModel.avr) :=
  ⟨by decide, by decide, by decide, by decide, by decide,
    tare_zeroes_reading DataModel.avr ⟨3, 2, 1, 0, 1, 0⟩ 5 [(0, 5), (1, 5)] [(3, 5), (0, 5)] []
      [] (fun _ => 0) (by decide) (by decide) (by decide) (by decide) (by decide)⟩

theorem read_some (dm : DataModel) (s s1 : HX711) (w w1 : Wire) (v : Int)
    (h : read dm s w = some (v, s1, w1)) : s1 = { s with m_last := v } := by
  unfold read at h
  split at h
  · exact absurd h (by simp)
  · split at h
    · exact absurd h (by simp)
    · simp only [Option.some.injEq, Prod.mk.injEq] at h
      obtain ⟨hv, hs, _⟩ := h
      rw [← hs, ← hv]

theorem read_sum_some (dm : DataModel) (n : Nat) (acc x : Int) (s s1 : HX711) (w w1 : Wire)
    (h : read_sum dm n acc s w = some (x, s1, w1)) : ∃ m, s1 = { s with m_last := m } := by
  induction n generalizing acc s w with
  | zero =>
    simp only [read_sum, Option.some.injEq, Prod.mk.injEq] at h
    exact ⟨s.m_last, h.2.1.symm⟩
  | succ k ih =>
    simp only [read_sum] at h
    split at h
    · exact absurd h (by simp)
    · rename_i r s2 w2 hr
      obtain ⟨m, hm⟩ := ih _ _ _ h
      exact ⟨m, by rw [hm, read_some dm s s2 w w2 r hr]⟩

theorem read_average_some (dm : DataModel) (n : Nat) (avg : Int) (s s1 : HX711) (w w1 : Wire)
    (h : read_average dm n s w = some (avg, s1, w1)) : s1 = { s with m_last := avg } := by
  unfold read_average at h
  split at h
  · exact absurd h (by simp)
  · rename_i sum s2 w2 hs
    split at h
    · exact absurd h (by simp)
    · simp only [Option.some.injEq, Prod.mk.injEq] at h
      obtain ⟨m, hm⟩ := read_sum_some dm n 0 sum s s2 w w2 hs
      obtain ⟨hv, hs1, _⟩ := h
      rw [← hs1, ← hv, hm]

/-- C6: on every wire input, `get_value(n)` is `read_average(n) - OFFSET` (the subtraction of two
`long` values) on the same input, and for `SCALE != 0` `get_units(n)` is `get_value(n) / SCALE` on
the same input; both return exactly when `read_average(n)` returns, and the state they leave has
the `OFFSET` and `SCALE` they found.  On `n >= 1` conversions with raw codes in `[0, 2^24)` both
do return. -/
theorem get_value_units_identities (dm : DataModel) (n : Nat) (s : HX711) (w : Wire)
    (hn : 1 ≤ n) (hscale : s.SCALE ≠ 0) :
    get_value dm n s w
        = (read_average dm n s w).map (fun r => (wrap_long dm (r.1 - s.OFFSET), r.2))
      ∧ get_units dm n s w
        = (get_value dm n s w).map (fun r => (some ((r.1 : ℚ) / s.SCALE), r.2))
      ∧ (∀ v s1 w1, get_value dm n s w = some (v, s1, w1) →
          s1.OFFSET = s.OFFSET ∧ s1.SCALE = s.SCALE)
      ∧ (∀ u s1 w1, get_units dm n s w = some (u, s1, w1) →
          s1.OFFSET = s.OFFSET ∧ s1.SCALE = s.SCALE)
      ∧ (∀ a b : Int, LONG_MIN dm ≤ a - b → a - b ≤ LONG_MAX dm → wrap_long dm (a - b) = a - b)
      ∧ (∀ (cs : List (Nat × Nat)) (rest : List Bool) (log : List PinOp) (g : Nat → Nat),
          cs.length = n → (∀ c ∈ cs, c.2 < 2 ^ 24) →
          (get_value dm n s ⟨script cs ++ rest, log, g⟩).isSome = true
            ∧ (get_units dm n s ⟨script cs ++ rest, log, g⟩).isSome = true) := by
  have hv : get_value dm n s w
      = (read_average dm n s w).map (fun r => (wrap_long dm (r.1 - s.OFFSET), r.2)) := by
    unfold get_value
    cases h : read_average dm n s w with
    | none => rfl
    | some r =>
      obtain ⟨avg, s1, w1⟩ := r
      rw [read_average_some dm n avg s s1 w w1 h]
      rfl
  have hu : get_units dm n s w
      = (get_value dm n s w).map (fun r => (some ((r.1 : ℚ) / s.SCALE), r.2)) := by
    unfold get_units
    rw [hv]
    cases h : read_average dm n s w with
    | none => rfl
    | some r =>
      obtain ⟨avg, s1, w1⟩ := r
      rw [read_average_some dm n avg s s1 w w1 h]
      simp [fdiv, hscale]
  refine ⟨hv, hu, ?_, ?_, fun a b h0 h1 => wrap_long_of_range dm _ h0 h1, ?_⟩
  · intro v s1 w1 h
    rw [hv] at h
    cases h2 : read_average dm n s w with
    | none => rw [h2] at h; exact absurd h (by simp)
    | some r =>
      obtain ⟨avg, s2, w2⟩ := r
      rw [h2] at h
      simp only [Option.map_some', Option.some.injEq, Prod.mk.injEq] at h
      rw [← h.2.1, read_average_some dm n avg s s2 w w2 h2]
      exact ⟨rfl, rfl⟩
  · intro u s1 w1 h
    rw [hu, hv] at h
    cases h2 : read_average dm n s w with
    | none => rw [h2] at h; exact absurd h (by simp)
    | some r =>
      obtain ⟨avg, s2, w2⟩ := r
      rw [h2] at h
      simp only [Option.map_some', Option.some.injEq, Prod.mk.injEq] at h
      rw [← h.2.1, read_average_some dm n avg s s2 w w2 h2]
      exact ⟨rfl, rfl⟩
  · intro cs rest log g hlen hcs
    have hne : cs ≠ [] := by
      intro h
      rw [h] at hlen
      simp at hlen
      omega
    have h := read_average_script dm s cs rest log g hcs hne
    rw [hlen] at h
    have hv2 : (get_value dm n s ⟨script cs ++ rest, log, g⟩).isSome = true := by
      simp [get_value, h]
    refine ⟨hv2, ?_⟩
    simp [get_units, get_value, h]

theorem get_value_units_identities_witness :
    1 ≤ 2 ∧ (⟨3, 2, 1, 4, 2, 0⟩ : HX711).SCALE ≠ 0
      ∧ get_value DataModel.avr 2 ⟨3, 2, 1, 4, 2, 0⟩ ⟨script [(0, 10), (2, 21)], [], fun _ => 0⟩
        = (read_average DataModel.avr 2 ⟨3, 2, 1, 4, 2, 0⟩
            ⟨script [(0, 10), (2, 21)], [], fun _ => 0⟩).map
          (fun r => (wrap_long DataModel.avr (r.1 - (⟨3, 2, 1, 4, 2, 0⟩ : HX711).OFFSET), r.2)) :=
  ⟨by decide, by decide,
    (get_value_units_identities DataModel.avr 2 ⟨3, 2, 1, 4, 2, 0⟩
      ⟨script [(0, 10), (2, 21)], [], fun _ => 0⟩ (by decide) (by decide)).1⟩


/-- C7: with `SCALE != 0`, `get_last_units()` returns `(m_last - OFFSET) / SCALE` (a `long`
subtraction, then the float quotient) and hands back the channel state and the wire, pin log
and pending input included, exactly as it found them.  Hence right after a `read_average(n)`
that returned `avg` it returns `(avg - OFFSET) / SCALE`, which is the value `get_units(n)`
returns on the same input. -/
theorem get_last_units_no_transaction (dm : DataModel) (s : HX711) (w : Wire)
    (hscale : s.SCALE ≠ 0) :
    get_last_units dm s w
        = (some (((wrap_long dm (s.m_last - s.OFFSET) : Int) : ℚ) / s.SCALE), s, w)
      ∧ (∀ (n : Nat) (avg : Int) (s1 : HX711) (w1 : Wire),
          read_average dm n s w = some (avg, s1, w1) →
            get_last_units dm s1 w1
                = (some (((wrap_long dm (avg - s.OFFSET) : Int) : ℚ) / s.SCALE), s1, w1)
              ∧ get_units dm n s w = some ((get_last_units dm s1 w1).1, s1, w1)) := by
  constructor
  · simp [get_last_units, fdiv, hscale]
  · intro n avg s1 w1 h
    have hs := read_average_some dm n avg s s1 w w1 h
    subst hs
    constructor
    · simp [get_last_units, fdiv, hscale]
    · simp [get_units, get_value, h, get_last_units]

theorem get_last_units_no_transaction_witness :
    (⟨3, 2, 1, 4, 2, 0⟩ : HX711).SCALE ≠ 0
      ∧ (∀ (n : Nat) (avg : Int) (s1 : HX711) (w1 : Wire),
          read_average DataModel.avr n ⟨3, 2, 1, 4, 2, 0⟩
              ⟨script [(0, 10), (2, 21)], [], fun _ => 0⟩ = some (avg, s1, w1) →
            get_last_units DataModel.avr s1 w1
                = (some (((wrap_long DataModel.avr (avg - (⟨3, 2, 1, 4, 2, 0⟩ : HX711).OFFSET)
                    : Int) : ℚ) / (⟨3, 2, 1, 4, 2, 0⟩ : HX711).SCALE), s1, w1)
              ∧ get_units DataModel.avr n ⟨3, 2, 1, 4, 2, 0⟩
                  ⟨script [(0, 10), (2, 21)], [], fun _ => 0⟩
                = some ((get_last_units DataModel.avr s1 w1).1, s1, w1))
      ∧ (read_average DataModel.avr 2 ⟨3, 2, 1, 4, 2, 0⟩
          ⟨script [(0, 10), (2, 21)], [], fun _ => 0⟩).map (fun r => r.1) = some 15 :=
  ⟨by decide,
    (get_last_units_no_transaction DataModel.avr ⟨3, 2, 1, 4, 2, 0⟩
      ⟨script [(0, 10), (2, 21)], [], fun _ => 0⟩ (by decide)).2,
    by
      have h := (read_average_script DataModel.avr ⟨3, 2, 1, 4, 2, 0⟩ [(0, 10), (2, 21)] [] []
        (fun _ => 0) (by decide) (by decide))
      simp only [List.append_nil, List.length_cons, List.length_nil] at h
      rw [h]
      decide⟩

theorem pulses_getLast (p : List PinOp) (x : PinOp) (k : Nat) (l : List PinOp) (hk : 1 ≤ k) :
    (l ++ pulses (p ++ [x]) k).getLast? = some x := by
  induction k generalizing l with
  | zero => omega
  | succ n ih =>
    by_cases h : n = 0
    · subst h
      simp [pulses]
    · have := ih (l ++ (p ++ [x])) (by omega)
      simpa [pulses, List.append_assoc] using this

/-- C8: for a gain code in {128, 64, 32} with `k` = 1, 3, 2 extra pulses respectively,
`set_gain` drives the clock `LOW`, performs one read transaction and leaves `GAIN = k`; and in
every state with `GAIN = k` a `read()` adds to the pin log exactly its readiness polls (one when
the device is ready), then 24 clock pulses `HIGH, sample, LOW`, then `k` clock pulses
`HIGH, LOW` without sampling, keeps `GAIN = k`, and ends on a clock `LOW` write. -/
theorem read_is_one_transaction (dm : DataModel) (gain k : Nat) (s : HX711)
    (hk : (gain = 128 ∧ k = 1) ∨ (gain = 64 ∧ k = 3) ∨ (gain = 32 ∧ k = 2)) :
    (∀ (idle r : Nat) (rest : List Bool) (log : List PinOp) (g : Nat → Nat), r < 2 ^ 24 →
        set_gain dm gain s ⟨frame idle (encode r) ++ rest, log, g⟩
          = some ({ s with GAIN := k, m_last := (r : Int) },
              ⟨rest, log ++ [PinOp.write s.PD_SCK false]
                ++ transaction { s with GAIN := k } idle, g⟩))
      ∧ (∀ (s1 : HX711) (idle : Nat) (bits rest : List Bool) (log : List PinOp) (g : Nat → Nat),
          s1.GAIN = k → bits.length = 24 →
          ∃ v : Int, read dm s1 ⟨frame idle bits ++ rest, log, g⟩
              = some (v, { s1 with m_last := v },
                  ⟨rest, log ++ (List.replicate (idle + 1) (PinOp.read s1.DOUT)
                    ++ pulses [PinOp.write s1.PD_SCK true, PinOp.read s1.DOUT,
                        PinOp.write s1.PD_SCK false] 24
                    ++ pulses [PinOp.write s1.PD_SCK true, PinOp.write s1.PD_SCK false] k), g⟩)
            ∧ ({ s1 with m_last := v } : HX711).GAIN = k
            ∧ (log ++ (List.replicate (idle + 1) (PinOp.read s1.DOUT)
                    ++ pulses [PinOp.write s1.PD_SCK true, PinOp.read s1.DOUT,
                        PinOp.write s1.PD_SCK false] 24
                    ++ pulses [PinOp.write s1.PD_SCK true, PinOp.write s1.PD_SCK false] k)).getLast?
                = some (PinOp.write s1.PD_SCK false)) := by
  have hk1 : 1 ≤ k := by omega
  constructor
  · intro idle r rest log g hr
    have hs : (if gain = 128 then { s with GAIN := 1 }
        else if gain = 64 then { s with GAIN := 3 }
        else if gain = 32 then { s with GAIN := 2 }
        else s) = { s with GAIN := k } := by
      rcases hk with ⟨h1, h2⟩ | ⟨h1, h2⟩ | ⟨h1, h2⟩ <;> subst h1 h2 <;> simp
    simp only [set_gain, hs, digitalWrite]
    rw [read_code dm _ idle r rest _ g hr]
  · intro s1 idle bits rest log g hg hlen
    subst hg
    refine ⟨((wireCode bits ^^^ 0x800000 : Nat) : Int), ?_, rfl, ?_⟩
    · rw [read_eq dm s1 idle bits rest log g hlen]
      rfl
    · have := pulses_getLast [PinOp.write s1.PD_SCK true] (PinOp.write s1.PD_SCK false) s1.GAIN
        (log ++ (List.replicate (idle + 1) (PinOp.read s1.DOUT)
          ++ pulses [PinOp.write s1.PD_SCK true, PinOp.read s1.DOUT,
              PinOp.write s1.PD_SCK false] 24)) hk1
      simpa [List.append_assoc] using this

theorem read_is_one_transaction_witness :
    ((64 = 128 ∧ 3 = 1) ∨ (64 = 64 ∧ 3 = 3) ∨ (64 = 32 ∧ 3 = 2))
      ∧ (∀ (idle r : Nat) (rest : List Bool) (log : List PinOp) (g : Nat → Nat), r < 2 ^ 24 →
        set_gain DataModel.avr 64 ⟨3, 2, 1, 0, 1, 0⟩ ⟨frame idle (encode r) ++ rest, log, g⟩
          = some ({ (⟨3, 2, 1, 0, 1, 0⟩ : HX711) with GAIN := 3, m_last := (r : Int) },
              ⟨rest, log ++ [PinOp.write (⟨3, 2, 1, 0, 1, 0⟩ : HX711).PD_SCK false]
                ++ transaction { (⟨3, 2, 1, 0, 1, 0⟩ : HX711) with GAIN := 3 } idle, g⟩)) :=
  ⟨by decide, (read_is_one_transaction DataModel.avr 64 3 ⟨3, 2, 1, 0, 1, 0⟩ (by decide)).1⟩


/-! ## Persistence -/

theorem toBytesLE_length (n v : Nat) : (toBytesLE n v).length = n := by
  induction n generalizing v with
  | zero => rfl
  | succ k ih => simp [toBytesLE, ih]

theorem toBytesLE_mod (n v : Nat) : (toBytesLE n v).map (fun b => b % 256) = toBytesLE n v := by
  induction n generalizing v with
  | zero => rfl
  | succ k ih => simp [toBytesLE, ih]

theorem ofBytesLE_toBytesLE (n v : Nat) : ofBytesLE (toBytesLE n v) = v % 256 ^ n := by
  induction n generalizing v with
  | zero => simp [toBytesLE, ofBytesLE, Nat.mod_one]
  | succ k ih =>
    simp only [toBytesLE, ofBytesLE, ih, Nat.mod_mod]
    rw [pow_succ', Nat.mod_mul]

theorem load_loop_bytes (n i : Nat) (e : EEPROM) :
    (load_loop n i e).1 = (List.range' i n).map (fun a => e.cells a % 256) := by
  induction n generalizing i e with
  | zero => rfl
  | succ k ih =>
    simp only [load_loop, ih, List.range'_succ, List.map_cons, EEPROM.read]

theorem load_loop_cells (n i : Nat) (e : EEPROM) : (load_loop n i e).2.cells = e.cells := by
  induction n generalizing i e with
  | zero => rfl
  | succ k ih => simp only [load_loop, ih, EEPROM.read]

theorem load_loop_log (n i : Nat) (e : EEPROM) :
    (load_loop n i e).2.log = e.log ++ (List.range' i n).map EepromOp.read := by
  induction n generalizing i e with
  | zero => simp [load_loop]
  | succ k ih =>
    simp only [load_loop, ih, EEPROM.read, List.range'_succ, List.map_cons, List.append_assoc,
      List.singleton_append]

theorem update_cells_same (i b : Nat) (e : EEPROM) :
    (EEPROM.update i b e).cells i % 256 = b % 256 := by
  unfold EEPROM.update
  split
  · rename_i h
    simpa [EEPROM.read] using h
  · simp [EEPROM.write, EEPROM.read]

theorem update_cells_other (i b a : Nat) (e : EEPROM) (h : a ≠ i) :
    (EEPROM.update i b e).cells a = e.cells a := by
  unfold EEPROM.update
  split
  · rfl
  · simp [EEPROM.write, EEPROM.read, Function.update, h]

theorem save_loop_below (bs : List Nat) (i a : Nat) (e : EEPROM) (h : a < i) :
    (save_loop bs i e).cells a = e.cells a := by
  induction bs generalizing i e with
  | nil => rfl
  | cons b bs ih =>
    simp only [save_loop]
    rw [ih (i + 1) _ (by omega), update_cells_other i b a e (by omega)]

theorem save_loop_bytes (bs : List Nat) (i : Nat) (e : EEPROM) :
    (List.range' i bs.length).map (fun a => (save_loop bs i e).cells a % 256)
      = bs.map (fun b => b % 256) := by
  induction bs generalizing i e with
  | nil => rfl
  | cons b bs ih =>
    simp only [List.length_cons, List.range'_succ, List.map_cons, save_loop]
    rw [ih (i + 1) _, save_loop_below bs (i + 1) i _ (by omega), update_cells_same]

theorem load_save (bs : List Nat) (e : EEPROM) :
    (load_loop bs.length 0 (save_loop bs 0 e)).1 = bs.map (fun b => b % 256) := by
  rw [load_loop_bytes, save_loop_bytes]

theorem save_record_mod (crc_calc : List Nat → Nat) (dm : DataModel) (scale : Nat)
    (offset : Int) :
    (save_record crc_calc dm scale offset).map (fun b => b % 256)
      = save_record crc_calc dm scale offset := by
  simp only [save_record, double_bytes, long_bytes, List.map_append, List.map_take,
    toBytesLE_mod]

theorem save_record_length (crc_calc : List Nat → Nat) (dm : DataModel) (scale : Nat)
    (offset : Int) : (save_record crc_calc dm scale offset).length = 3 * sizeof_long dm := by
  cases dm <;>
    simp [save_record, double_bytes, long_bytes, toBytesLE_length, sizeof_long, sizeof_double]

theorem load_after_save (crc_calc : List Nat → Nat) (dm : DataModel) (scale : Nat)
    (offset : Int) (e : EEPROM) :
    (load_loop (3 * sizeof_long dm) 0 (EEPROM_save crc_calc dm scale offset e).2).1
      = save_record crc_calc dm scale offset := by
  have h := load_save (save_record crc_calc dm scale offset) e
  rw [save_record_length, save_record_mod] at h
  exact h

theorem long_bytes_value (dm : DataModel) (o : Int) (h0 : LONG_MIN dm ≤ o)
    (h1 : o ≤ LONG_MAX dm) :
    wrap_long dm ((ofBytesLE (long_bytes dm o) : Nat) : Int) = o := by
  rw [long_bytes, ofBytesLE_toBytesLE]
  cases dm <;>
    simp only [wrap_long, long_bits, sizeof_long, LONG_MIN, LONG_MAX] at * <;>
    norm_num at * <;> omega


theorem crc32_check_append (payload : List Nat) :
    crc32_check (payload ++ toBytesLE 4 (crc32_calc payload % 2 ^ 32)) = true := by
  have hl : (toBytesLE 4 (crc32_calc payload % 2 ^ 32)).length = 4 := toBytesLE_length 4 _
  simp only [crc32_check, List.length_append, hl, Nat.add_sub_cancel, List.drop_left,
    List.take_left, ofBytesLE_toBytesLE, decide_eq_true_eq]
  constructor
  · omega
  · norm_num

/-- C2 (refuted as stated): with a 64-bit `double` and a 32-bit `unsigned long`, saving the
scale 1.0 (bit pattern `0x3FF0000000000000`) with offset 0 and loading it back succeeds but
yields the bit pattern 0, although the checksum check accepts every buffer that ends in the
checksum of its payload. -/
theorem save_load_counterexample :
    (∀ payload : List Nat,
        crc32_check (payload ++ toBytesLE (sizeof_long DataModel.ilp32)
          (crc32_calc payload % 2 ^ long_bits DataModel.ilp32)) = true)
      ∧ (EEPROM_load crc32_check DataModel.ilp32 0 0
          (EEPROM_save crc32_calc DataModel.ilp32 0x3FF0000000000000 0 ⟨fun _ => 0xFF, []⟩).2).1
        = true
      ∧ (EEPROM_load crc32_check DataModel.ilp32 0 0
          (EEPROM_save crc32_calc DataModel.ilp32 0x3FF0000000000000 0 ⟨fun _ => 0xFF, []⟩).2).2.1
        = 0
      ∧ (EEPROM_load crc32_check DataModel.ilp32 0 0
          (EEPROM_save crc32_calc DataModel.ilp32 0x3FF0000000000000 0 ⟨fun _ => 0xFF, []⟩).2).2.1
        ≠ 0x3FF0000000000000 := by
  have hc : ∀ payload : List Nat,
      crc32_check (payload ++ toBytesLE (sizeof_long DataModel.ilp32)
        (crc32_calc payload % 2 ^ long_bits DataModel.ilp32)) = true :=
    fun payload => crc32_check_append payload
  have hr := load_after_save crc32_calc DataModel.ilp32 0x3FF0000000000000 0
    ⟨fun _ => 0xFF, []⟩
  have hrec : save_record crc32_calc DataModel.ilp32 0x3FF0000000000000 0
      = [0, 0, 0, 0, 0, 0, 0, 0] ++ toBytesLE (sizeof_long DataModel.ilp32)
          (crc32_calc [0, 0, 0, 0, 0, 0, 0, 0] % 2 ^ long_bits DataModel.ilp32) := by
    have h0 : (double_bytes DataModel.ilp32 0x3FF0000000000000).take
        (sizeof_long DataModel.ilp32) = [0, 0, 0, 0] := by decide
    have h1 : long_bytes DataModel.ilp32 0 = [0, 0, 0, 0] := by decide
    simp only [save_record, h0, h1, List.cons_append, List.nil_append]
  have hok : (EEPROM_load crc32_check DataModel.ilp32 0 0
      (EEPROM_save crc32_calc DataModel.ilp32 0x3FF0000000000000 0 ⟨fun _ => 0xFF, []⟩).2)
      = (true, 0, 0, (load_loop (3 * sizeof_long DataModel.ilp32) 0
          (EEPROM_save crc32_calc DataModel.ilp32 0x3FF0000000000000 0
            ⟨fun _ => 0xFF, []⟩).2).2) := by
    unfold EEPROM_load
    simp only [hr]
    rw [hrec, hc]
    simp only [↓reduceIte, Prod.mk.injEq, true_and, and_true]
    constructor
    · decide
    · decide
  rw [hok]
  exact ⟨hc, rfl, rfl, by decide⟩


/-- C2 (amended): on a platform where a `double` is as wide as an `unsigned long` (both 4 bytes
on AVR, both 8 bytes on LP64), for every scale bit pattern `s` of that width and every `long`
offset `o`, whatever the storage held before, `EEPROM_save(s, o)` returns true and `EEPROM_load`
on the resulting storage returns true with scale `s` and offset `o` bit-exactly, provided
`crc32_check` accepts every buffer whose trailing word is `crc32_calc` of the preceding bytes. -/
theorem save_load_round_trip (crc_calc : List Nat → Nat) (crc_check : List Nat → Bool)
    (dm : DataModel) (s scale0 : Nat) (o offset0 : Int) (e : EEPROM)
    (hdm : sizeof_double dm = sizeof_long dm) (hs : s < 2 ^ (8 * sizeof_double dm))
    (ho1 : LONG_MIN dm ≤ o) (ho2 : o ≤ LONG_MAX dm)
    (hcrc : ∀ payload : List Nat,
      crc_check (payload ++ toBytesLE (sizeof_long dm) (crc_calc payload % 2 ^ long_bits dm))
        = true) :
    (EEPROM_save crc_calc dm s o e).1 = true
      ∧ (EEPROM_load crc_check dm scale0 offset0 (EEPROM_save crc_calc dm s o e).2).1 = true
      ∧ (EEPROM_load crc_check dm scale0 offset0 (EEPROM_save crc_calc dm s o e).2).2.1 = s
      ∧ (EEPROM_load crc_check dm scale0 offset0 (EEPROM_save crc_calc dm s o e).2).2.2.1 = o
    := by
  have hr := load_after_save crc_calc dm s o e
  have hd0 : (double_bytes dm s).take (sizeof_long dm) = toBytesLE (sizeof_long dm) s := by
    rw [double_bytes, hdm]
    exact List.take_of_length_le (by rw [toBytesLE_length])
  have hrec : save_record crc_calc dm s o
      = toBytesLE (sizeof_long dm) s ++ (long_bytes dm o
        ++ toBytesLE (sizeof_long dm)
          (crc_calc (toBytesLE (sizeof_long dm) s ++ long_bytes dm o) % 2 ^ long_bits dm)) := by
    simp only [save_record, hd0, List.append_assoc]
  have hl0 : (toBytesLE (sizeof_long dm) s).length = sizeof_long dm := toBytesLE_length _ _
  have hl1 : (long_bytes dm o).length = sizeof_long dm := toBytesLE_length _ _
  have hok : crc_check (save_record crc_calc dm s o) = true := by
    rw [hrec, ← List.append_assoc]
    exact hcrc _
  have hscale : ofBytesLE ((save_record crc_calc dm s o).take (sizeof_double dm)) = s := by
    rw [hrec, hdm, List.take_left' hl0, ofBytesLE_toBytesLE]
    apply Nat.mod_eq_of_lt
    rw [hdm] at hs
    have : (256 : Nat) ^ sizeof_long dm = 2 ^ (8 * sizeof_long dm) := by
      rw [pow_mul]
      norm_num
    rw [this]
    exact hs
  have hoff : wrap_long dm ((ofBytesLE (((save_record crc_calc dm s o).drop
      (sizeof_long dm)).take (sizeof_long dm)) : Nat) : Int) = o := by
    rw [hrec, List.drop_left' hl0, List.take_left' hl1]
    exact long_bytes_value dm o ho1 ho2
  refine ⟨rfl, ?_, ?_, ?_⟩ <;> unfold EEPROM_load <;> simp only [hr, hok, ↓reduceIte]
  · exact hscale
  · exact hoff

theorem save_load_round_trip_witness :
    sizeof_double DataModel.avr = sizeof_long DataModel.avr
      ∧ 0x47B70DAC < 2 ^ (8 * sizeof_double DataModel.avr)
      ∧ LONG_MIN DataModel.avr ≤ -5 ∧ (-5 : Int) ≤ LONG_MAX DataModel.avr
      ∧ (∀ payload : List Nat,
          crc32_check (payload ++ toBytesLE (sizeof_long DataModel.avr)
            (crc32_calc payload % 2 ^ long_bits DataModel.avr)) = true)
      ∧ (EEPROM_load crc32_check DataModel.avr 7 9
          (EEPROM_save crc32_calc DataModel.avr 0x47B70DAC (-5) ⟨fun _ => 0xFF, []⟩).2).1 = true
      ∧ (EEPROM_load crc32_check DataModel.avr 7 9
          (EEPROM_save crc32_calc DataModel.avr 0x47B70DAC (-5) ⟨fun _ => 0xFF, []⟩).2).2.1
        = 0x47B70DAC
      ∧ (EEPROM_load crc32_check DataModel.avr 7 9
          (EEPROM_save crc32_calc DataModel.avr 0x47B70DAC (-5) ⟨fun _ => 0xFF, []⟩).2).2.2.1
        = -5 :=
  ⟨by decide, by decide, by decide, by decide, fun payload => crc32_check_append payload,
    (save_load_round_trip crc32_calc crc32_check DataModel.avr 0x47B70DAC 7 (-5) 9
      ⟨fun _ => 0xFF, []⟩ (by decide) (by decide) (by decide) (by decide)
      (fun payload => crc32_check_append payload)).2⟩

theorem load_reads_record (crc_check : List Nat → Bool) (dm : DataModel) (scale0 : Nat)
    (offset0 : Int) (e : EEPROM) :
    EEPROM_load crc_check dm scale0 offset0 e
      = if crc_check (stored_record dm e) then
          (true, ofBytesLE ((stored_record dm e).take (sizeof_double dm)),
            wrap_long dm ((ofBytesLE (((stored_record dm e).drop (sizeof_long dm)).take
              (sizeof_long dm)) : Nat) : Int),
            (load_loop (3 * sizeof_long dm) 0 e).2)
        else (false, scale0, offset0, (load_loop (3 * sizeof_long dm) 0 e).2) := by
  unfold EEPROM_load stored_record
  simp only [load_loop_bytes, List.range_eq_range']

/-- C3: `HX711_preload` returns true exactly when the checksum of the 3-word record at storage
addresses `0 .. 3 * sizeof(unsigned long) - 1` validates.  When it returns true the channel's
`SCALE` is the stored `double` (converted to the `float` parameter of `set_scale`) and its
`OFFSET` the stored `long`; when it returns false `SCALE` is the single-precision literal
`93723.34f` (exactly 93723.34375, within half a unit in the last place of 93723.34) and `OFFSET`
is `0x7EAE6E` = 8302190.  Nothing else of the channel changes. -/
theorem preload_falls_back_to_defaults (crc_check : List Nat → Bool) (dm : DataModel)
    (toFloat : Nat → ℚ) (scale0 : Nat) (offset0 : Int) (loadcell : HX711) (e : EEPROM) :
    (HX711_preload crc_check dm toFloat scale0 offset0 loadcell e).1
        = crc_check (stored_record dm e)
      ∧ (crc_check (stored_record dm e) = true →
          (HX711_preload crc_check dm toFloat scale0 offset0 loadcell e).2.1
            = { loadcell with
                SCALE := toFloat (ofBytesLE ((stored_record dm e).take (sizeof_double dm))),
                OFFSET := wrap_long dm ((ofBytesLE (((stored_record dm e).drop
                  (sizeof_long dm)).take (sizeof_long dm)) : Nat) : Int) })
      ∧ (crc_check (stored_record dm e) = false →
          (HX711_preload crc_check dm toFloat scale0 offset0 loadcell e).2.1
            = { loadcell with SCALE := default_scale, OFFSET := 8302190 })
      ∧ default_scale = 93723.34375
      ∧ |default_scale - 93723.34| ≤ 1 / 256
      ∧ (0x7EAE6E : Int) = 8302190 := by
  refine ⟨?_, ?_, ?_, ?_, ?_, by norm_num⟩
  · unfold HX711_preload
    rw [load_reads_record]
    cases crc_check (stored_record dm e) <;> simp
  · intro h
    unfold HX711_preload
    rw [load_reads_record, h]
    simp [set_offset, set_scale]
  · intro h
    unfold HX711_preload
    rw [load_reads_record, h]
    simp [set_offset, set_scale]
  · norm_num [default_scale]
  · rw [abs_le]
    constructor <;> norm_num [default_scale]


/-! ## Rotation sensor -/

theorem start_started (st : HallState) (b : Board) (h : st.m_started = true) :
    start st b = (false, st, b) := by
  simp [start, h]

theorem start_fresh (st : HallState) (b : Board) (h : st.m_started = false) :
    start st b
      = (true,
          { st with m_speed := some 0, m_t1 := b.clock b.calls, m_t2 := b.clock (b.calls + 1),
                    m_started := true },
          { b with calls := b.calls + 2,
                   ops := b.ops ++ [BoardOp.pinModePullup st.m_pin,
                     BoardOp.attachFalling st.m_pin] }) := by
  simp [start, h, millis]

theorem starts_started (k : Nat) (st : HallState) (b : Board) (h : st.m_started = true) :
    starts k st b = (List.replicate k false, st, b) := by
  induction k with
  | zero => rfl
  | succ n ih => simp only [starts, start_started st b h, ih, List.replicate_succ]

/-- C9: `hall_info::start` is a one-shot transition.  In a not-started state it returns true,
configures the pin and attaches the handler, and leaves `m_started` true, `m_speed` 0 and the
two edge timestamps equal to the clock as read by its two successive `millis()` calls (both equal
to `now` when the clock reads `now` at both); pin and pulse count are kept.  In a started state
it returns false, makes no board call, reads no clock and leaves every variable unchanged.
Hence of any `k + 1` successive `start()` calls from a not-started state exactly the first
returns true. -/
theorem start_is_one_shot (st : HallState) (b : Board) :
    (st.m_started = false →
        start st b
          = (true,
              { st with m_speed := some 0, m_t1 := b.clock b.calls, m_t2 := b.clock (b.calls + 1),
                        m_started := true },
              { b with calls := b.calls + 2,
                       ops := b.ops ++ [BoardOp.pinModePullup st.m_pin,
                         BoardOp.attachFalling st.m_pin] })
          ∧ ∀ now : Nat, b.clock b.calls = now → b.clock (b.calls + 1) = now →
              (start st b).2.1.m_t1 = now ∧ (start st b).2.1.m_t2 = now)
      ∧ (st.m_started = true → start st b = (false, st, b))
      ∧ (st.m_started = false → ∀ k : Nat,
          (starts (k + 1) st b).1 = true :: List.replicate k false) := by
  refine ⟨fun h => ⟨start_fresh st b h, ?_⟩, start_started st b, ?_⟩
  · intro now h1 h2
    rw [start_fresh st b h]
    exact ⟨h1, h2⟩
  · intro h k
    simp only [starts, start_fresh st b h]
    rw [starts_started k _ _ rfl]

theorem constructions_started (ps : List Int) (st : HallState) (h : st.m_started = true) :
    constructions ps st = st := by
  induction ps with
  | nil => rfl
  | cons p ps ih => simp [constructions, hall_info, h, ih]

theorem constructions_fresh (ps : List Int) (p : Int) (st : HallState)
    (h : st.m_started = false) :
    constructions (ps ++ [p]) st = { st with m_pin := p } := by
  induction ps generalizing st with
  | nil => simp [constructions, hall_info, h]
  | cons q qs ih =>
    show constructions (qs ++ [p]) (hall_info q st) = _
    rw [ih (hall_info q st) (by simp [hall_info, h])]
    simp [hall_info, h]

/-- C10 (refuted as stated): constructing `hall_info(2)` and then `hall_info(3)` before any
`start()` makes `start()` configure pin 3 and attach the interrupt to pin 3, not to pin 2 of the
first constructed instance. -/
theorem first_writer_counterexample :
    (start (constructions [2, 3] hall_reset) ⟨fun k => k, 0, []⟩).2.2.ops
        = [BoardOp.pinModePullup 3, BoardOp.attachFalling 3]
      ∧ (start (constructions [2, 3] hall_reset) ⟨fun k => k, 0, []⟩).2.2.ops
        ≠ [BoardOp.pinModePullup 2, BoardOp.attachFalling 2] := by
  constructor <;> decide

/-- C10 (amended): the rotation-sensor pin is last-writer-wins before start.  If instances are
constructed with pins `p1, ..., pk` (in that order) before any `start()`, then `m_pin` is `pk`,
and `start()` succeeds, configures `pk` as pulled-up input and attaches the interrupt to `pk`. -/
theorem last_writer_wins_before_start (ps : List Int) (pk : Int) (st : HallState) (b : Board)
    (h : st.m_started = false) :
    (constructions (ps ++ [pk]) st).m_pin = pk
      ∧ (start (constructions (ps ++ [pk]) st) b).1 = true
      ∧ (start (constructions (ps ++ [pk]) st) b).2.2.ops
        = b.ops ++ [BoardOp.pinModePullup pk, BoardOp.attachFalling pk] := by
  rw [constructions_fresh ps pk st h, start_fresh { st with m_pin := pk } b h]
  exact ⟨rfl, rfl, rfl⟩

theorem last_writer_wins_before_start_witness :
    hall_reset.m_started = false
      ∧ (constructions ([2, 5] ++ [3]) hall_reset).m_pin = 3
      ∧ (start (constructions ([2, 5] ++ [3]) hall_reset) ⟨fun k => k, 0, []⟩).1 = true
      ∧ (start (constructions ([2, 5] ++ [3]) hall_reset) ⟨fun k => k, 0, []⟩).2.2.ops
        = (⟨fun k => k, 0, []⟩ : Board).ops
          ++ [BoardOp.pinModePullup 3, BoardOp.attachFalling 3] :=
  ⟨rfl, last_writer_wins_before_start [2, 5] 3 hall_reset ⟨fun k => k, 0, []⟩ rfl⟩


/-! ## Unsupported gain codes and failed loads -/

/-- C19: for every gain code other than 128, 64 and 32, `set_gain` leaves `GAIN` as it was,
writes the clock `LOW` and then performs exactly one read transaction with the previous number
of gain pulses; it returns no status, and the only member it changes is `m_last` (by that
read). -/
theorem set_gain_unsupported_keeps_selector (dm : DataModel) (gain : Nat) (s : HX711)
    (idle r : Nat) (rest : List Bool) (log : List PinOp) (g : Nat → Nat)
    (hg : gain ≠ 128 ∧ gain ≠ 64 ∧ gain ≠ 32) (hr : r < 2 ^ 24) :
    set_gain dm gain s ⟨frame idle (encode r) ++ rest, log, g⟩
        = some ({ s with m_last := (r : Int) },
            ⟨rest, log ++ [PinOp.write s.PD_SCK false] ++ transaction s idle, g⟩)
      ∧ ({ s with m_last := (r : Int) } : HX711).GAIN = s.GAIN
      ∧ transaction s idle
        = List.replicate (idle + 1) (PinOp.read s.DOUT)
          ++ pulses [PinOp.write s.PD_SCK true, PinOp.read s.DOUT, PinOp.write s.PD_SCK false] 24
          ++ pulses [PinOp.write s.PD_SCK true, PinOp.write s.PD_SCK false] s.GAIN := by
  refine ⟨?_, rfl, rfl⟩
  obtain ⟨h1, h2, h3⟩ := hg
  simp only [set_gain, h1, h2, h3, ↓reduceIte, digitalWrite]
  rw [read_code dm s idle r rest _ g hr]

theorem set_gain_unsupported_keeps_selector_witness :
    ((0 : Nat) ≠ 128 ∧ (0 : Nat) ≠ 64 ∧ (0 : Nat) ≠ 32) ∧ 5 < 2 ^ 24
      ∧ set_gain DataModel.avr 0 ⟨3, 2, 3, 0, 1, 0⟩ ⟨frame 1 (encode 5) ++ [], [], fun _ => 0⟩
        = some ({ (⟨3, 2, 3, 0, 1, 0⟩ : HX711) with m_last := ((5 : Nat) : Int) },
            ⟨[], [] ++ [PinOp.write (⟨3, 2, 3, 0, 1, 0⟩ : HX711).PD_SCK false]
              ++ transaction ⟨3, 2, 3, 0, 1, 0⟩ 1, fun _ => 0⟩) :=
  ⟨by decide, by decide,
    (set_gain_unsupported_keeps_selector DataModel.avr 0 ⟨3, 2, 3, 0, 1, 0⟩ 1 5 [] []
      (fun _ => 0) (by decide) (by decide)).1⟩

/-- C20: whatever the storage holds, `EEPROM_load` leaves every cell as it was, writes nothing
and reads exactly the addresses `0, 1, ..., 3 * sizeof(unsigned long) - 1`, each once and in
this order; and when the record it read fails `crc32_check` it returns false and the caller's
`scale` and `offset` keep the values they had before the call. -/
theorem load_failure_is_atomic (crc_check : List Nat → Bool) (dm : DataModel) (scale0 : Nat)
    (offset0 : Int) (e : EEPROM) :
    (EEPROM_load crc_check dm scale0 offset0 e).2.2.2.cells = e.cells
      ∧ (EEPROM_load crc_check dm scale0 offset0 e).2.2.2.log
        = e.log ++ (List.range (3 * sizeof_long dm)).map EepromOp.read
      ∧ (crc_check (stored_record dm e) = false →
          (EEPROM_load crc_check dm scale0 offset0 e).1 = false
            ∧ (EEPROM_load crc_check dm scale0 offset0 e).2.1 = scale0
            ∧ (EEPROM_load crc_check dm scale0 offset0 e).2.2.1 = offset0) := by
  rw [load_reads_record]
  refine ⟨?_, ?_, ?_⟩
  · cases crc_check (stored_record dm e) <;> simp [load_loop_cells]
  · cases crc_check (stored_record dm e) <;> simp [load_loop_log, List.range_eq_range']
  · intro h
    simp [h]


/-! ## The edge handler -/

theorem hall_step_running (dm : DataModel) (a : HallAction) (p : HallState × Board)
    (h : p.1.m_started = true) :
    (hall_step dm a p).1.m_pin = p.1.m_pin ∧ (hall_step dm a p).1.m_started = true := by
  cases a with
  | construct pin => simp [hall_step, hall_info, h]
  | start => simp [hall_step, start, h]
  | isr =>
    simp only [hall_step, hall_isr]
    split
    · exact ⟨rfl, h⟩
    · exact ⟨rfl, h⟩
  | get_speed => exact ⟨rfl, h⟩
  | get_rotates => exact ⟨rfl, h⟩

theorem hall_run_running (dm : DataModel) (acts : List HallAction) (p : HallState × Board)
    (h : p.1.m_started = true) :
    (hall_run dm acts p).1.m_pin = p.1.m_pin ∧ (hall_run dm acts p).1.m_started = true := by
  induction acts generalizing p with
  | nil => exact ⟨rfl, h⟩
  | cons a rest ih =>
    have hs := hall_step_running dm a p h
    have hr := ih (hall_step dm a p) hs.2
    exact ⟨by rw [hall_run, hr.1, hs.1], by rw [hall_run]; exact hr.2⟩

/-- C11: after a `start()` that returned true, every further sequence of constructions (with any
pins), `start()` calls, handler invocations and `get_speed`/`get_rotates` reads leaves `m_pin`
equal to the pin that this `start()` configured and attached the interrupt to, and `m_started`
true. -/
theorem no_pin_reassignment_once_running (dm : DataModel) (st0 : HallState) (b0 : Board)
    (acts : List HallAction) (h : (start st0 b0).1 = true) :
    (start st0 b0).2.2.ops
        = b0.ops ++ [BoardOp.pinModePullup st0.m_pin, BoardOp.attachFalling st0.m_pin]
      ∧ (hall_run dm acts (start st0 b0).2).1.m_pin = st0.m_pin
      ∧ (hall_run dm acts (start st0 b0).2).1.m_started = true := by
  have hns : st0.m_started = false := by
    cases hs : st0.m_started with
    | false => rfl
    | true =>
      rw [start_started st0 b0 hs] at h
      exact absurd h (by simp)
  have hr := hall_run_running dm acts (start st0 b0).2 (by rw [start_fresh st0 b0 hns])
  refine ⟨by rw [start_fresh st0 b0 hns], ?_, hr.2⟩
  rw [hr.1, start_fresh st0 b0 hns]

theorem no_pin_reassignment_once_running_witness :
    (start (hall_info 2 hall_reset) ⟨clock_of [0, 1, 6001], 0, []⟩).1 = true
      ∧ (hall_run DataModel.avr
          [HallAction.construct 7, HallAction.isr, HallAction.start, HallAction.get_speed,
            HallAction.construct 9, HallAction.isr, HallAction.get_rotates]
          (start (hall_info 2 hall_reset) ⟨clock_of [0, 1, 6001], 0, []⟩).2).1.m_pin
        = (hall_info 2 hall_reset).m_pin
      ∧ (hall_info 2 hall_reset).m_pin = 2 :=
  ⟨rfl, (no_pin_reassignment_once_running DataModel.avr (hall_info 2 hall_reset)
    ⟨clock_of [0, 1, 6001], 0, []⟩
    [HallAction.construct 7, HallAction.isr, HallAction.start, HallAction.get_speed,
      HallAction.construct 9, HallAction.isr, HallAction.get_rotates] rfl).2.1, rfl⟩

theorem ulong_sub_elapsed (dm : DataModel) (a b : Nat) (hdm : sizeof_long dm = 4) :
    ulong_sub dm a b = elapsed a b := by
  simp only [ulong_sub, elapsed, long_bits, hdm]

theorem isr_rejects (dm : DataModel) (st : HallState) (b : Board)
    (h : ulong_sub dm (b.clock b.calls) st.m_t2 < 1) :
    hall_isr dm st b = (st, { b with calls := b.calls + 1 }) := by
  simp only [hall_isr, millis]
  rw [if_neg (by omega)]

theorem isr_accepts (dm : DataModel) (st : HallState) (b : Board) (now : Nat)
    (h2 : b.clock (b.calls + 1) = now) (h : 1 ≤ ulong_sub dm (b.clock b.calls) st.m_t2)
    (hd : 1 ≤ ulong_sub dm now st.m_t2) :
    hall_isr dm st b
      = ({ st with
            m_rotates := (st.m_rotates + 1) % 2 ^ long_bits dm,
            m_t1 := st.m_t2,
            m_t2 := now,
            m_speed := st.m_speed.bind (fun yp =>
              l_apzveno_mp (60000 / (ulong_sub dm now st.m_t2 : ℚ)) yp
                ((ulong_sub dm now st.m_t2 : ℚ) / 1000) 2) },
          { b with calls := b.calls + 2 }) := by
  have hq : (ulong_sub dm now st.m_t2 : ℚ) ≠ 0 := by
    have : (1 : ℚ) ≤ (ulong_sub dm now st.m_t2 : ℚ) := by exact_mod_cast hd
    intro h0
    rw [h0] at this
    norm_num at this
  simp only [hall_isr, millis]
  rw [if_pos h]
  simp only [h2, fdiv, hq, ↓reduceIte, Option.map_some']
  have hv : (1000 : ℚ) / (ulong_sub dm now st.m_t2 : ℚ) * 60
      = 60000 / (ulong_sub dm now st.m_t2 : ℚ) := by
    field_simp
    norm_num
  rw [hv]
  cases hs : st.m_speed with
  | none => simp
  | some yp => simp


/-- C12: debounce step of `hall_isr` on a 32-bit `unsigned long`, the clock reading `now` at
both `millis()` calls of the invocation, `d = (now - m_t2) mod 2^32`.  If `d < 1` the variables
are unchanged.  If `d >= 1` then `d` is not 0, the pulse count is incremented (`m_rotates++` on
an `unsigned long`, so by exactly 1 below `2^32 - 1`), `m_t1` becomes the old `m_t2`, `m_t2`
becomes `now`, and the speed becomes `l_apzveno_mp(60000/d, old speed, d/1000, 2.0)`.  Hence a
second edge that reads a clock less than 1 ms later does not raise the count again, and one
that reads a clock at least 1 ms later raises it once more. -/
theorem isr_debounce_step (dm : DataModel) (st : HallState) (b : Board) (now now2 : Nat)
    (hdm : sizeof_long dm = 4) (h1 : b.clock b.calls = now) (h2 : b.clock (b.calls + 1) = now) :
    (elapsed now st.m_t2 < 1 → (hall_isr dm st b).1 = st)
      ∧ (1 ≤ elapsed now st.m_t2 →
          (hall_isr dm st b).1
              = { st with
                  m_rotates := (st.m_rotates + 1) % 2 ^ 32,
                  m_t1 := st.m_t2,
                  m_t2 := now,
                  m_speed := st.m_speed.bind (fun yp =>
                    l_apzveno_mp (60000 / (elapsed now st.m_t2 : ℚ)) yp
                      ((elapsed now st.m_t2 : ℚ) / 1000) 2) }
            ∧ (elapsed now st.m_t2 : ℚ) ≠ 0
            ∧ (st.m_rotates + 1 < 2 ^ 32 → (hall_isr dm st b).1.m_rotates = st.m_rotates + 1)
            ∧ (b.clock (b.calls + 2) = now2 → elapsed now2 now < 1 →
                (hall_isr dm (hall_isr dm st b).1 (hall_isr dm st b).2).1.m_rotates
                  = (st.m_rotates + 1) % 2 ^ 32)
            ∧ (b.clock (b.calls + 2) = now2 → b.clock (b.calls + 3) = now2 →
                1 ≤ elapsed now2 now →
                (hall_isr dm (hall_isr dm st b).1 (hall_isr dm st b).2).1.m_rotates
                  = ((st.m_rotates + 1) % 2 ^ 32 + 1) % 2 ^ 32)) := by
  have hb : (2 : Nat) ^ long_bits dm = 2 ^ 32 := by rw [long_bits, hdm]
  constructor
  · intro hd
    rw [isr_rejects dm st b (by rw [h1, ulong_sub_elapsed dm _ _ hdm]; exact hd)]
  · intro hd
    have hacc := isr_accepts dm st b now h2
      (by rw [h1, ulong_sub_elapsed dm _ _ hdm]; exact hd)
      (by rw [ulong_sub_elapsed dm _ _ hdm]; exact hd)
    rw [ulong_sub_elapsed dm _ _ hdm, hb] at hacc
    have hq : (elapsed now st.m_t2 : ℚ) ≠ 0 := by
      have : (1 : ℚ) ≤ (elapsed now st.m_t2 : ℚ) := by exact_mod_cast hd
      intro h0
      rw [h0] at this
      norm_num at this
    refine ⟨by rw [hacc], hq, ?_, ?_, ?_⟩
    · intro hlt
      rw [hacc]
      exact Nat.mod_eq_of_lt hlt
    · intro h3 hd2
      rw [hacc]
      rw [isr_rejects dm _ _ (by
        show ulong_sub dm (b.clock (b.calls + 2)) now < 1
        rw [h3, ulong_sub_elapsed dm _ _ hdm]
        exact hd2)]
    · intro h3 h4 hd2
      rw [hacc]
      rw [isr_accepts dm _ _ now2 (by exact h4)
        (by
          show 1 ≤ ulong_sub dm (b.clock (b.calls + 2)) now
          rw [h3, ulong_sub_elapsed dm _ _ hdm]
          exact hd2)
        (by
          show 1 ≤ ulong_sub dm now2 now
          rw [ulong_sub_elapsed dm _ _ hdm]
          exact hd2)]
      simp only [hb]

theorem isr_debounce_step_witness :
    sizeof_long DataModel.avr = 4
      ∧ (⟨clock_of [7, 9], 0, []⟩ : Board).clock (⟨clock_of [7, 9], 0, []⟩ : Board).calls = 7
      ∧ (⟨clock_of [7, 9], 0, []⟩ : Board).clock ((⟨clock_of [7, 9], 0, []⟩ : Board).calls + 1)
        = 7
      ∧ (1 ≤ elapsed 7 hall_reset.m_t2)
      ∧ (hall_isr DataModel.avr hall_reset ⟨clock_of [7, 9], 0, []⟩).1
        = { hall_reset with
            m_rotates := (hall_reset.m_rotates + 1) % 2 ^ 32,
            m_t1 := hall_reset.m_t2,
            m_t2 := 7,
            m_speed := hall_reset.m_speed.bind (fun yp =>
              l_apzveno_mp (60000 / (elapsed 7 hall_reset.m_t2 : ℚ)) yp
                ((elapsed 7 hall_reset.m_t2 : ℚ) / 1000) 2) } :=
  ⟨rfl, rfl, rfl, by decide,
    ((isr_debounce_step DataModel.avr hall_reset ⟨clock_of [7, 9], 0, []⟩ 7 9 rfl rfl rfl).2
      (by decide)).1⟩

/-! ## The exponential filter -/

theorem apzveno_eq (x yp dt T : ℚ) (hT : T ≠ 0) :
    l_apzveno_mp x yp dt T = some (dt / T * x + (1 - dt / T) * yp) := by
  simp [l_apzveno_mp, fdiv, hT]

theorem isr_at (dm : DataModel) (st : HallState) (ts : List Nat) (k now : Nat) (yp : ℚ)
    (ops : List BoardOp) (hnow : ts.getD k 0 = now) (hs : st.m_speed = some yp)
    (hd : 1 ≤ ulong_sub dm now st.m_t2) :
    hall_isr dm st ⟨clock_of ts, 2 * k, ops⟩
      = ({ st with
            m_rotates := (st.m_rotates + 1) % 2 ^ long_bits dm,
            m_t1 := st.m_t2,
            m_t2 := now,
            m_speed := l_apzveno_mp (60000 / (ulong_sub dm now st.m_t2 : ℚ)) yp
                ((ulong_sub dm now st.m_t2 : ℚ) / 1000) 2 },
          ⟨clock_of ts, 2 * (k + 1), ops⟩) := by
  have h1 : (⟨clock_of ts, 2 * k, ops⟩ : Board).clock (⟨clock_of ts, 2 * k, ops⟩ : Board).calls
      = now := by
    show ts.getD (2 * k / 2) 0 = now
    rw [Nat.mul_div_cancel_left k (by decide)]
    exact hnow
  have h2 : (⟨clock_of ts, 2 * k, ops⟩ : Board).clock
      ((⟨clock_of ts, 2 * k, ops⟩ : Board).calls + 1) = now := by
    show ts.getD ((2 * k + 1) / 2) 0 = now
    have : (2 * k + 1) / 2 = k := by omega
    rw [this]
    exact hnow
  rw [isr_accepts dm st _ now h2 (by rw [h1]; exact hd) hd, hs]
  rfl

/-- C13 (the code breaks the bound): started at clock 0 and invoked at the non-decreasing clock
values 1, 6001 and 4008001 ms, the handler leaves the speeds 30, -30 and 60030, so `get_speed()`
returns 60030 > 60000.  The bound does hold step by step while accepted edges are at most
2000 ms apart: `start()` leaves speed 0, and an invocation on a state whose speed is within
`[0, 60000]`, reading a clock at most 2000 ms after `m_t2`, leaves a speed within
`[0, 60000]`. -/
theorem speed_bound_broken_by_long_gaps :
    (start hall_reset ⟨clock_of [0, 1, 6001, 4008001], 0, []⟩).1 = true
      ∧ get_speed (isr_run DataModel.avr 1
          (start hall_reset ⟨clock_of [0, 1, 6001, 4008001], 0, []⟩).2).1 = some 30
      ∧ get_speed (isr_run DataModel.avr 2
          (start hall_reset ⟨clock_of [0, 1, 6001, 4008001], 0, []⟩).2).1 = some (-30)
      ∧ get_speed (isr_run DataModel.avr 3
          (start hall_reset ⟨clock_of [0, 1, 6001, 4008001], 0, []⟩).2).1 = some 60030
      ∧ (60000 : ℚ) < 60030
      ∧ (∀ (st0 : HallState) (b0 : Board), (start st0 b0).1 = true →
          get_speed (start st0 b0).2.1 = some 0)
      ∧ (∀ (dm : DataModel) (st : HallState) (b : Board) (now : Nat) (s : ℚ),
          b.clock b.calls = now → b.clock (b.calls + 1) = now →
          ulong_sub dm now st.m_t2 ≤ 2000 →
          get_speed st = some s → 0 ≤ s → s ≤ 60000 →
          ∃ s1 : ℚ, get_speed (hall_isr dm st b).1 = some s1 ∧ 0 ≤ s1 ∧ s1 ≤ 60000) := by
  have hstart : start hall_reset ⟨clock_of [0, 1, 6001, 4008001], 0, []⟩
      = (true, ⟨some 0, 0, 0, 0, true, 0⟩,
          ⟨clock_of [0, 1, 6001, 4008001], 2 * 1,
            [BoardOp.pinModePullup 0, BoardOp.attachFalling 0]⟩) := by
    rw [start_fresh _ _ rfl]
    rfl
  have e1 : hall_isr DataModel.avr ⟨some 0, 0, 0, 0, true, 0⟩
      ⟨clock_of [0, 1, 6001, 4008001], 2 * 1,
        [BoardOp.pinModePullup 0, BoardOp.attachFalling 0]⟩
      = (⟨some 30, 1, 0, 1, true, 0⟩,
          ⟨clock_of [0, 1, 6001, 4008001], 2 * 2,
            [BoardOp.pinModePullup 0, BoardOp.attachFalling 0]⟩) := by
    rw [isr_at DataModel.avr ⟨some 0, 0, 0, 0, true, 0⟩ [0, 1, 6001, 4008001] 1 1 0 _ rfl rfl
      (by decide)]
    have hu : ulong_sub DataModel.avr 1 0 = 1 := by decide
    simp only [hu, apzveno_eq _ _ _ 2 (by norm_num : (2 : ℚ) ≠ 0)]
    norm_num [long_bits, sizeof_long]
  have e2 : hall_isr DataModel.avr ⟨some 30, 1, 0, 1, true, 0⟩
      ⟨clock_of [0, 1, 6001, 4008001], 2 * 2,
        [BoardOp.pinModePullup 0, BoardOp.attachFalling 0]⟩
      = (⟨some (-30), 2, 1, 6001, true, 0⟩,
          ⟨clock_of [0, 1, 6001, 4008001], 2 * 3,
            [BoardOp.pinModePullup 0, BoardOp.attachFalling 0]⟩) := by
    rw [isr_at DataModel.avr ⟨some 30, 1, 0, 1, true, 0⟩ [0, 1, 6001, 4008001] 2 6001 30 _ rfl
      rfl (by decide)]
    have hu : ulong_sub DataModel.avr 6001 1 = 6000 := by decide
    simp only [hu, apzveno_eq _ _ _ 2 (by norm_num : (2 : ℚ) ≠ 0)]
    norm_num [long_bits, sizeof_long]
  have e3 : hall_isr DataModel.avr ⟨some (-30), 2, 1, 6001, true, 0⟩
      ⟨clock_of [0, 1, 6001, 4008001], 2 * 3,
        [BoardOp.pinModePullup 0, BoardOp.attachFalling 0]⟩
      = (⟨some 60030, 3, 6001, 4008001, true, 0⟩,
          ⟨clock_of [0, 1, 6001, 4008001], 2 * 4,
            [BoardOp.pinModePullup 0, BoardOp.attachFalling 0]⟩) := by
    rw [isr_at DataModel.avr ⟨some (-30), 2, 1, 6001, true, 0⟩ [0, 1, 6001, 4008001] 3 4008001
      (-30) _ rfl rfl (by decide)]
    have hu : ulong_sub DataModel.avr 4008001 6001 = 4002000 := by decide
    simp only [hu, apzveno_eq _ _ _ 2 (by norm_num : (2 : ℚ) ≠ 0)]
    norm_num [long_bits, sizeof_long]
  refine ⟨by rw [hstart], ?_, ?_, ?_, by norm_num, ?_, ?_⟩
  · simp only [hstart, isr_run, e1, get_speed]
  · simp only [hstart, isr_run, e1, e2, get_speed]
  · simp only [hstart, isr_run, e1, e2, e3, get_speed]
  · intro st0 b0 h
    have hns : st0.m_started = false := by
      cases hs : st0.m_started with
      | false => rfl
      | true =>
        rw [start_started st0 b0 hs] at h
        exact absurd h (by simp)
    rw [start_fresh st0 b0 hns]
    rfl
  · intro dm st b now s h1 h2 hgap hs h0 h60
    by_cases hd : 1 ≤ ulong_sub dm now st.m_t2
    · have hs' : st.m_speed = some s := hs
      rw [isr_accepts dm st b now h2 (by rw [h1]; exact hd) hd, hs']
      have hq1 : (1 : ℚ) ≤ (ulong_sub dm now st.m_t2 : ℚ) := by exact_mod_cast hd
      have hq2 : (ulong_sub dm now st.m_t2 : ℚ) ≤ 2000 := by exact_mod_cast hgap
      have hq0 : (ulong_sub dm now st.m_t2 : ℚ) ≠ 0 := by
        intro h
        rw [h] at hq1
        norm_num at hq1
      have hval : (ulong_sub dm now st.m_t2 : ℚ) / 1000 / 2
          * (60000 / (ulong_sub dm now st.m_t2 : ℚ))
          + (1 - (ulong_sub dm now st.m_t2 : ℚ) / 1000 / 2) * s
          = 30 + (1 - (ulong_sub dm now st.m_t2 : ℚ) / 2000) * s := by
        field_simp
        ring
      refine ⟨30 + (1 - (ulong_sub dm now st.m_t2 : ℚ) / 2000) * s, ?_, ?_, ?_⟩
      · simp only [get_speed, Option.some_bind]
        rw [apzveno_eq _ _ _ 2 (by norm_num : (2 : ℚ) ≠ 0), hval]
      · have : 0 ≤ (1 - (ulong_sub dm now st.m_t2 : ℚ) / 2000) * s :=
          mul_nonneg (by linarith) h0
        linarith
      · have hc : 0 ≤ 1 - (ulong_sub dm now st.m_t2 : ℚ) / 2000 := by linarith
        have : (1 - (ulong_sub dm now st.m_t2 : ℚ) / 2000) * s
            ≤ (1 - (ulong_sub dm now st.m_t2 : ℚ) / 2000) * 60000 :=
          mul_le_mul_of_nonneg_left h60 hc
        linarith
    · rw [isr_rejects dm st b (by rw [h1]; omega)]
      exact ⟨s, hs, h0, h60⟩


/-! ## The moving average -/

theorem average_loop_arr (i : Nat) (arr : Nat → ℚ) (sum : ℚ) (j : Nat) :
    (average_loop i arr sum).1 j = if 1 ≤ j ∧ j ≤ i then arr (j - 1) else arr j := by
  induction i generalizing arr sum with
  | zero =>
    simp only [average_loop]
    rw [if_neg (by omega)]
  | succ n ih =>
    simp only [average_loop, ih]
    by_cases h1 : 1 ≤ j ∧ j ≤ n
    · rw [if_pos h1, if_pos (by omega)]
      simp [Function.update, show j - 1 ≠ n + 1 by omega]
    · rw [if_neg h1]
      by_cases h2 : j = n + 1
      · subst h2
        simp
      · rw [if_neg (by omega)]
        simp [Function.update, h2]

theorem average_loop_sum (i : Nat) (arr : Nat → ℚ) (sum : ℚ) :
    (average_loop i arr sum).2 = sum + ((List.range i).map arr).sum := by
  induction i generalizing arr sum with
  | zero => simp [average_loop]
  | succ n ih =>
    simp only [average_loop, ih, Function.update_same, List.range_succ, List.map_append,
      List.sum_append, List.map_cons, List.map_nil, List.sum_cons, List.sum_nil, add_zero]
    have hc : (List.range n).map (Function.update arr (n + 1) (arr n)) = (List.range n).map arr := by
      apply List.map_congr_left
      intro a ha
      have : a < n := List.mem_range.mp ha
      simp [Function.update, show a ≠ n + 1 by omega]
    rw [hc]
    ring

theorem l_average_eq (x : ℚ) (arr : Nat → ℚ) (N : Nat) (hN : 1 ≤ N) :
    l_average x arr N
      = some ((x + ((List.range (N - 1)).map arr).sum) / (N : ℚ),
          fun j => if j = 0 then x else if j < N then arr (j - 1) else arr j) := by
  unfold l_average
  rw [if_neg (by omega)]
  simp only [Function.update_same, average_loop_sum, zero_add, Option.some.injEq, Prod.mk.injEq]
  constructor
  · rw [add_comm]
  · funext j
    by_cases h0 : j = 0
    · subst h0
      simp
    · simp only [Function.update, h0, ↓reduceDIte, ↓reduceIte, average_loop_arr]
      by_cases h1 : j < N
      · rw [if_pos (by omega), if_pos h1]
      · rw [if_neg (by omega), if_neg h1]

theorem average_nu_loop_eq (init : ℚ) (n i : Nat) (arr : Nat → ℚ) (j : Nat) :
    average_nu_loop init n i arr j = if i ≤ j ∧ j < i + n then init else arr j := by
  induction n generalizing i arr with
  | zero =>
    simp only [average_nu_loop]
    rw [if_neg (by omega)]
  | succ m ih =>
    simp only [average_nu_loop, ih]
    by_cases h1 : i + 1 ≤ j ∧ j < i + 1 + m
    · rw [if_pos h1, if_pos (by omega)]
    · rw [if_neg h1]
      by_cases h2 : j = i
      · subst h2
        rw [if_pos (by omega)]
        simp
      · rw [if_neg (by omega)]
        simp [Function.update, h2]

theorem sum_map_const (n : Nat) (f : Nat → ℚ) (v : ℚ) (h : ∀ j, j < n → f j = v) :
    ((List.range n).map f).sum = (n : ℚ) * v := by
  induction n with
  | zero => simp
  | succ m ih =>
    rw [List.range_succ, List.map_append, List.sum_append, ih (fun j hj => h j (by omega))]
    simp only [List.map_cons, List.map_nil, List.sum_cons, List.sum_nil, add_zero,
      h m (by omega)]
    push_cast
    ring

/-- C15: for every size `N >= 1` and seed `v`, after `l_average_nu(arr, N, v)` the `N` cells of
the array all equal `v` (cells beyond them are untouched), a call `l_average(v, arr, N)` returns
`v`, and a call `l_average(x, arr, N)` with another sample `x` returns `((N-1)*v + x)/N` (exact
rationals). -/
theorem seeded_average (N : Nat) (v x : ℚ) (arr : Nat → ℚ) (hN : 1 ≤ N) :
    (∀ j, j < N → l_average_nu arr N v j = v)
      ∧ (∀ j, N ≤ j → l_average_nu arr N v j = arr j)
      ∧ (l_average v (l_average_nu arr N v) N).map (fun r => r.1) = some v
      ∧ (l_average x (l_average_nu arr N v) N).map (fun r => r.1)
        = some ((((N : ℚ) - 1) * v + x) / (N : ℚ)) := by
  have hcell : ∀ j, j < N → l_average_nu arr N v j = v := by
    intro j hj
    rw [l_average_nu, average_nu_loop_eq, if_pos (by omega)]
  have hsum : ((List.range (N - 1)).map (l_average_nu arr N v)).sum = ((N : ℚ) - 1) * v := by
    rw [sum_map_const (N - 1) _ v (fun j hj => hcell j (by omega))]
    congr 1
    have : ((N - 1 : Nat) : ℚ) = (N : ℚ) - 1 := by
      rw [Nat.cast_sub hN]
      simp
    exact this
  have hN0 : (N : ℚ) ≠ 0 := by
    have : (1 : ℚ) ≤ (N : ℚ) := by exact_mod_cast hN
    intro h
    rw [h] at this
    norm_num at this
  refine ⟨hcell, ?_, ?_, ?_⟩
  · intro j hj
    rw [l_average_nu, average_nu_loop_eq, if_neg (by omega)]
  · rw [l_average_eq v _ N hN, hsum]
    simp only [Option.map_some', Option.some.injEq]
    field_simp
    ring
  · rw [l_average_eq x _ N hN, hsum]
    simp only [Option.map_some', Option.some.injEq]
    rw [add_comm]

theorem seeded_average_witness :
    1 ≤ 4
      ∧ (l_average 5 (l_average_nu (fun _ => 0) 4 5) 4).map (fun r => r.1) = some 5
      ∧ (l_average 9 (l_average_nu (fun _ => 0) 4 5) 4).map (fun r => r.1)
        = some (((((4 : Nat) : ℚ) - 1) * 5 + 9) / ((4 : Nat) : ℚ)) :=
  ⟨by decide, (seeded_average 4 5 9 (fun _ => 0) (by decide)).2.2.1,
    (seeded_average 4 5 9 (fun _ => 0) (by decide)).2.2.2⟩


theorem window_after (x : ℚ) (arr : Nat → ℚ) (N : Nat) (hN : 1 ≤ N) :
    (List.range N).map (fun j => if j = 0 then x else if j < N then arr (j - 1) else arr j)
      = ((x :: (List.range N).map arr)).take N := by
  obtain ⟨m, rfl⟩ : ∃ m, N = m + 1 := ⟨N - 1, by omega⟩
  rw [List.take_succ_cons, ← List.map_take, List.take_range, Nat.min_eq_left (Nat.le_succ m),
    List.range_succ_eq_map, List.map_cons, List.map_map]
  simp only [↓reduceIte, List.cons.injEq, true_and]
  apply List.map_congr_left
  intro a ha
  have : a < m := List.mem_range.mp ha
  simp [this]

theorem take_append_take (N : Nat) (a b : List ℚ) :
    (a ++ b.take N).take N = (a ++ b).take N := by
  rw [List.take_append_eq_append_take, List.take_append_eq_append_take, List.take_take,
    Nat.min_eq_left (Nat.sub_le N a.length)]

theorem feed_spec (N : Nat) (hN : 1 ≤ N) (xs : List ℚ) (arr : Nat → ℚ) (last : Option ℚ) :
    (List.range N).map (feed N xs arr last).2 = (xs.reverse ++ (List.range N).map arr).take N
      ∧ (feed N xs arr last).1
        = if xs = [] then last
          else some (((List.range N).map (feed N xs arr last).2).sum / (N : ℚ)) := by
  induction xs generalizing arr last with
  | nil =>
    simp only [feed, List.reverse_nil, List.nil_append, ↓reduceIte, and_true]
    rw [List.take_of_length_le (by simp)]
  | cons x xs ih =>
    have hw := window_after x arr N hN
    have hr : (x + ((List.range (N - 1)).map arr).sum) / (N : ℚ)
        = ((List.range N).map
            (fun j => if j = 0 then x else if j < N then arr (j - 1) else arr j)).sum
          / (N : ℚ) := by
      obtain ⟨m, rfl⟩ : ∃ m, N = m + 1 := ⟨N - 1, by omega⟩
      rw [hw, List.take_succ_cons, ← List.map_take, List.take_range,
        Nat.min_eq_left (Nat.le_succ m), List.sum_cons]
      rfl
    simp only [feed, l_average_eq x arr N hN]
    obtain ⟨h1, h2⟩ := ih (fun j => if j = 0 then x else if j < N then arr (j - 1) else arr j)
      (some ((x + ((List.range (N - 1)).map arr).sum) / (N : ℚ)))
    constructor
    · rw [h1, hw, take_append_take, List.reverse_cons, List.append_assoc, List.singleton_append]
    · rw [h2, if_neg (List.cons_ne_nil x xs)]
      by_cases hx : xs = []
      · subst hx
        simp only [↓reduceIte, feed, hr]
      · rw [if_neg hx]

/-- C17: for every size `N >= 1`, array contents and sample `x`, `l_average(x, arr, N)` leaves
the array as `[x, a_0, ..., a_(N-2)]` (cells beyond the `N`-th untouched) and returns
`(x + a_0 + ... + a_(N-2))/N`; and after feeding `k >= N` samples in order, the last call
returns the arithmetic mean of the last `N` samples, whatever the array held at first (exact
rationals). -/
theorem moving_average_window (N : Nat) (x : ℚ) (arr : Nat → ℚ) (xs : List ℚ) (hN : 1 ≤ N)
    (hk : N ≤ xs.length) :
    l_average x arr N
        = some ((x + ((List.range (N - 1)).map arr).sum) / (N : ℚ),
            fun j => if j = 0 then x else if j < N then arr (j - 1) else arr j)
      ∧ (feed N xs arr none).1 = some ((xs.drop (xs.length - N)).sum / (N : ℚ)) := by
  refine ⟨l_average_eq x arr N hN, ?_⟩
  obtain ⟨h1, h2⟩ := feed_spec N hN xs arr none
  have hne : xs ≠ [] := by
    intro h
    rw [h] at hk
    simp at hk
    omega
  rw [h2, if_neg hne, h1, List.take_append_of_le_length (by simpa using hk), List.take_reverse,
    List.sum_reverse]

theorem moving_average_window_witness :
    1 ≤ 3 ∧ 3 ≤ [10, 20, 30, (40 : ℚ)].length
      ∧ (feed 3 [10, 20, 30, 40] (fun k => (k : ℚ) + 7) none).1
        = some (([10, 20, 30, (40 : ℚ)].drop ([10, 20, 30, (40 : ℚ)].length - 3)).sum
            / ((3 : Nat) : ℚ)) :=
  ⟨by decide, by decide, (moving_average_window 3 0 (fun k => (k : ℚ) + 7) [10, 20, 30, 40]
    (by decide) (by decide)).2⟩

/-! ## Number input -/

theorem scan_digits_int (dm : DataModel) (ds : List Nat) (fuel n : Nat) (q t : ℚ) (sg : Bool)
    (tail tx : List Nat) (hds : ∀ d ∈ ds, d < 10)
    (hfit : ((n * 10 ^ ds.length + decimal ds : Nat) : Int) ≤ LONG_MAX dm) :
    scan_loop dm (ds.length + fuel) ⟨(n : Int), q, t, false, sg, false⟩
        ⟨digit_bytes ds ++ tail, tx⟩
      = scan_loop dm fuel ⟨((n * 10 ^ ds.length + decimal ds : Nat) : Int), q, t, false, sg, false⟩
          ⟨tail, tx ++ digit_bytes ds⟩ := by
  induction ds generalizing n tx with
  | nil => simp [digit_bytes, decimal]
  | cons d ds ih =>
    have hd : d < 10 := hds d (List.mem_cons_self _ _)
    have hds1 : ∀ x ∈ ds, x < 10 := fun x hx => hds x (List.mem_cons_of_mem _ hx)
    have hval : (n * 10 + d) * 10 ^ ds.length + decimal ds
        = n * 10 ^ (d :: ds).length + decimal (d :: ds) := by
      simp only [List.length_cons, decimal, pow_succ]
      ring
    have hfit1 : (((n * 10 + d) * 10 ^ ds.length + decimal ds : Nat) : Int) ≤ LONG_MAX dm := by
      rw [hval]
      exact hfit
    have hpos : 1 ≤ 10 ^ ds.length := Nat.one_le_pow _ _ (by decide)
    have hle : n * 10 + d ≤ (n * 10 + d) * 10 ^ ds.length + decimal ds := by
      have : n * 10 + d ≤ (n * 10 + d) * 10 ^ ds.length := Nat.le_mul_of_pos_right _ hpos
      omega
    have hmin := long_min_le dm
    have hw : wrap_long dm ((n : Int) * 10 + ((48 + d - 48 : Nat) : Int))
        = ((n * 10 + d : Nat) : Int) := by
      have e : (n : Int) * 10 + ((48 + d - 48 : Nat) : Int) = ((n * 10 + d : Nat) : Int) := by
        rw [Nat.add_sub_cancel_left]
        push_cast
        ring
      rw [e]
      apply wrap_long_of_range
      · have : (0 : Int) ≤ ((n * 10 + d : Nat) : Int) := Int.ofNat_nonneg _
        omega
      · have : ((n * 10 + d : Nat) : Int)
            ≤ (((n * 10 + d) * 10 ^ ds.length + decimal ds : Nat) : Int) := Int.ofNat_le.mpr hle
        omega
    have hfuel : (d :: ds).length + fuel = (ds.length + fuel) + 1 := by
      simp only [List.length_cons]
      omega
    rw [hfuel]
    simp only [digit_bytes, List.map_cons, List.cons_append, scan_loop, l_getch, Serial.write]
    rw [if_pos (by omega)]
    simp only [Bool.not_false, ↓reduceIte, hw]
    have := ih (n * 10 + d) (tx ++ [48 + d]) hds1 hfit1
    simp only [digit_bytes] at this
    rw [this, hval]
    simp

theorem float_tenth_ne_zero : float_tenth ≠ 0 := by
  norm_num [float_tenth]

theorem scan_digits_frac (dm : DataModel) (fs : List Nat) (fuel : Nat) (z : Int) (q t : ℚ)
    (sg : Bool) (tail tx : List Nat) (hfs : ∀ d ∈ fs, d < 10) :
    scan_loop dm (fs.length + fuel) ⟨z, q, t, true, sg, false⟩ ⟨digit_bytes fs ++ tail, tx⟩
      = scan_loop dm fuel
          ⟨z, q + t / float_tenth * fraction fs, t * float_tenth ^ fs.length, true, sg, false⟩
          ⟨tail, tx ++ digit_bytes fs⟩ := by
  induction fs generalizing q t tx with
  | nil => simp [digit_bytes, fraction]
  | cons d fs ih =>
    have hd : d < 10 := hfs d (List.mem_cons_self _ _)
    have hfs1 : ∀ x ∈ fs, x < 10 := fun x hx => hfs x (List.mem_cons_of_mem _ hx)
    have hc := float_tenth_ne_zero
    have hfuel : (d :: fs).length + fuel = (fs.length + fuel) + 1 := by
      simp only [List.length_cons]
      omega
    rw [hfuel]
    simp only [digit_bytes, List.map_cons, List.cons_append, scan_loop, l_getch, Serial.write]
    rw [if_pos (by omega)]
    simp only [Bool.not_true, Bool.false_eq_true, ↓reduceIte, Nat.add_sub_cancel_left]
    have := ih (q + (d : ℚ) * t) (t * float_tenth) (tx ++ [48 + d]) hfs1
    simp only [digit_bytes] at this
    rw [this]
    have e1 : q + (d : ℚ) * t + t * float_tenth / float_tenth * fraction fs
        = q + t / float_tenth * fraction (d :: fs) := by
      simp only [fraction]
      field_simp
      ring
    have e2 : t * float_tenth * float_tenth ^ fs.length
        = t * float_tenth ^ (d :: fs).length := by
      simp only [List.length_cons, pow_succ]
      ring
    rw [e1, e2]
    simp

theorem scan_terminator (dm : DataModel) (fuel term : Nat) (st : ScanState)
    (rest tx : List Nat) (ht : term = 13 ∨ term = 10) :
    scan_loop dm (fuel + 1) st ⟨term :: rest, tx⟩ = some (st, ⟨rest, tx ++ [term]⟩) := by
  rcases ht with h | h <;> subst h <;> simp [scan_loop, l_getch, Serial.write]

theorem scan_tail (dm : DataModel) (fp : Option (Nat × List Nat)) (fuel term : Nat) (z : Int)
    (sg : Bool) (rest tx : List Nat)
    (hfp : ∀ c fs, fp = some (c, fs) → (c = 46 ∨ c = 44) ∧ ∀ f ∈ fs, f < 10)
    (ht : term = 13 ∨ term = 10) :
    ∃ st : ScanState,
      scan_loop dm ((fraction_bytes fp).length + (fuel + 1)) ⟨z, 0, float_tenth, false, sg, false⟩
          ⟨fraction_bytes fp ++ (term :: rest), tx⟩
        = some (st, ⟨rest, tx ++ (fraction_bytes fp ++ [term])⟩)
      ∧ st.integer = z ∧ st.frac = fraction_value fp ∧ st.sign = sg ∧ st.error = false := by
  cases fp with
  | none =>
    refine ⟨⟨z, 0, float_tenth, false, sg, false⟩, ?_, rfl, rfl, rfl, rfl⟩
    simp only [fraction_bytes, List.length_nil, Nat.zero_add, List.nil_append]
    exact scan_terminator dm fuel term _ rest tx ht
  | some cf =>
    obtain ⟨c, fs⟩ := cf
    obtain ⟨hc, hfs⟩ := hfp c fs rfl
    refine ⟨⟨z, 0 + float_tenth / float_tenth * fraction fs, float_tenth * float_tenth ^ fs.length, true, sg,
      false⟩, ?_,
      rfl, ?_, rfl, rfl⟩
    · have hfuel : (fraction_bytes (some (c, fs))).length + (fuel + 1)
          = (fs.length + (fuel + 1)) + 1 := by
        simp only [fraction_bytes, digit_bytes, List.length_cons, List.length_map]
        omega
      rw [hfuel]
      have hstep : scan_loop dm ((fs.length + (fuel + 1)) + 1) ⟨z, 0, float_tenth, false, sg, false⟩
          ⟨c :: (digit_bytes fs ++ (term :: rest)), tx⟩
          = scan_loop dm (fs.length + (fuel + 1)) ⟨z, 0, float_tenth, true, sg, false⟩
              ⟨digit_bytes fs ++ (term :: rest), tx ++ [c]⟩ := by
        rcases hc with h | h <;> subst h <;> simp [scan_loop, l_getch, Serial.write]
      simp only [fraction_bytes, List.cons_append]
      rw [hstep, scan_digits_frac dm fs (fuel + 1) z 0 float_tenth sg _ _ hfs,
        scan_terminator dm fuel term _ rest _ ht]
      simp
    · simp only [fraction_value]
      rw [div_self float_tenth_ne_zero]
      ring

theorem scan_number (dm : DataModel) (ds : List Nat) (fp : Option (Nat × List Nat))
    (fuel term : Nat) (sg : Bool) (rest tx : List Nat) (hds : ∀ d ∈ ds, d < 10)
    (hfp : ∀ c fs, fp = some (c, fs) → (c = 46 ∨ c = 44) ∧ ∀ f ∈ fs, f < 10)
    (ht : term = 13 ∨ term = 10) (hfit : ((decimal ds : Nat) : Int) ≤ LONG_MAX dm) :
    ∃ st : ScanState,
      scan_loop dm (ds.length + ((fraction_bytes fp).length + (fuel + 1)))
          ⟨0, 0, float_tenth, false, sg, false⟩
          ⟨digit_bytes ds ++ (fraction_bytes fp ++ (term :: rest)), tx⟩
        = some (st, ⟨rest, tx ++ (digit_bytes ds ++ (fraction_bytes fp ++ [term]))⟩)
      ∧ st.integer = ((decimal ds : Nat) : Int) ∧ st.frac = fraction_value fp ∧ st.sign = sg
      ∧ st.error = false := by
  have h := scan_digits_int dm ds ((fraction_bytes fp).length + (fuel + 1)) 0 0 float_tenth sg
    (fraction_bytes fp ++ (term :: rest)) tx hds (by simpa using hfit)
  simp only [Nat.cast_zero, Nat.zero_mul, Nat.zero_add] at h
  obtain ⟨st, hst, h1, h2, h3, h4⟩ := scan_tail dm fp fuel term ((decimal ds : Nat) : Int) sg
    rest (tx ++ digit_bytes ds) hfp ht
  refine ⟨st, ?_, h1, h2, h3, h4⟩
  rw [h, hst]
  simp

theorem fraction_zero (fs : List Nat) (h : ∀ f ∈ fs, f = 0) : fraction fs = 0 := by
  induction fs with
  | nil => rfl
  | cons f fs ih =>
    have hf : f = 0 := h f (List.mem_cons_self _ _)
    simp [fraction, hf, ih (fun x hx => h x (List.mem_cons_of_mem _ hx))]

theorem fraction_value_zero (fp : Option (Nat × List Nat))
    (h : ∀ c fs, fp = some (c, fs) → ∀ f ∈ fs, f = 0) : fraction_value fp = 0 := by
  cases fp with
  | none => rfl
  | some cf =>
    obtain ⟨c, fs⟩ := cf
    exact fraction_zero fs (h c fs rfl)

/-- C18 (refuted as stated): on the input `-12,50` followed by LF, `l_scanf_double` returns
`-(12 + 5 * c)` with `c` the value 13421773 / 2^27 of the literal `0.1f`, that is
-1677721601 / 2^27 = -12.500000007450580596923828125, and not `-(12 + 5/10 + 0/100)` = -25/2. -/
theorem scanf_fraction_counterexample :
    l_scanf_double DataModel.lp64 ⟨[45, 49, 50, 44, 53, 48, 10], []⟩
        = some (some (-1677721601 / 134217728), ⟨[], [45, 49, 50, 44, 53, 48, 10]⟩)
      ∧ (-1677721601 / 134217728 : ℚ) ≠ -1 * ((1 * 10 + 2) + (5 / 10 + 0 / 100)) := by
  have hw : ∀ n : Nat, n < 100 →
      wrap_long DataModel.lp64 ((n : Nat) : Int) = ((n : Nat) : Int) := by
    intro n hn
    apply wrap_long_of_bounds
    · have : (0 : Int) ≤ ((n : Nat) : Int) := Int.ofNat_nonneg n
      omega
    · have : ((n : Nat) : Int) < 100 := by exact_mod_cast hn
      omega
  have h1 := hw 1 (by decide)
  have h12 := hw 12 (by decide)
  simp only [Nat.cast_one, Nat.cast_ofNat] at h1 h12
  constructor
  · simp [l_scanf_double, scan_loop, scan_init, l_getch, Serial.write, h1, h12]
    norm_num [float_tenth]
  · norm_num

/-- C18 (amended): for an input that starts with an optional `'-'`, digits `d_1 .. d_k`
(`k >= 0`), an optional fractional part (one `'.'` or `','` and digits `f_1 .. f_m`, `m >= 0`)
and CR or LF, the integer part within the range of `long`, `l_scanf_double` returns
`s * (sum d_i * 10^(k-i) + sum f_j * c^j)` with `c` the value 13421773 / 2^27 of the literal
`0.1f` and `s = -1` when the `'-'` is there and `+1` otherwise (exact rationals); the
fractional term is 0 when there is no fractional digit other than `0`.  It consumes the input
up to and including the terminator, leaves what follows, and echoes exactly the consumed bytes,
in order. -/
theorem scanf_value_of_well_formed (dm : DataModel) (neg : Bool) (ds : List Nat)
    (fp : Option (Nat × List Nat)) (term : Nat) (rest tx : List Nat)
    (hds : ∀ d ∈ ds, d < 10)
    (hfp : ∀ c fs, fp = some (c, fs) → (c = 46 ∨ c = 44) ∧ ∀ f ∈ fs, f < 10)
    (ht : term = 13 ∨ term = 10) (hfit : ((decimal ds : Nat) : Int) ≤ LONG_MAX dm) :
    l_scanf_double dm ⟨number_text neg ds fp term ++ rest, tx⟩
        = some (some ((if neg then -1 else 1) * ((decimal ds : ℚ) + fraction_value fp)),
            ⟨rest, tx ++ number_text neg ds fp term⟩)
      ∧ ((∀ c fs, fp = some (c, fs) → ∀ f ∈ fs, f = 0) → fraction_value fp = 0) := by
  refine ⟨?_, fraction_value_zero fp⟩
  cases neg with
  | false =>
    obtain ⟨st, hst, h1, h2, h3, h4⟩ := scan_number dm ds fp rest.length term false rest tx hds
      hfp ht hfit
    have hlen : (number_text false ds fp term ++ rest).length
        = ds.length + ((fraction_bytes fp).length + (rest.length + 1)) := by
      simp [number_text, digit_bytes]
    simp only [l_scanf_double, hlen, scan_init]
    have htext : number_text false ds fp term ++ rest
        = digit_bytes ds ++ (fraction_bytes fp ++ (term :: rest)) := by
      simp [number_text]
    rw [htext, hst]
    simp only [h4, h3, h1, h2, Bool.not_false, ↓reduceIte, Bool.false_eq_true]
    simp [number_text]
  | true =>
    obtain ⟨st, hst, h1, h2, h3, h4⟩ := scan_number dm ds fp rest.length term true rest
      (tx ++ [45]) hds hfp ht hfit
    have hlen : (number_text true ds fp term ++ rest).length
        = (ds.length + ((fraction_bytes fp).length + (rest.length + 1))) + 1 := by
      simp [number_text, digit_bytes]
    simp only [l_scanf_double, hlen, scan_init]
    have htext : number_text true ds fp term ++ rest
        = 45 :: (digit_bytes ds ++ (fraction_bytes fp ++ (term :: rest))) := by
      simp [number_text]
    have hstep : scan_loop dm ((ds.length + ((fraction_bytes fp).length + (rest.length + 1))) + 1)
        ⟨0, 0, float_tenth, false, false, false⟩
        ⟨45 :: (digit_bytes ds ++ (fraction_bytes fp ++ (term :: rest))), tx⟩
        = scan_loop dm (ds.length + ((fraction_bytes fp).length + (rest.length + 1)))
            ⟨0, 0, float_tenth, false, true, false⟩
            ⟨digit_bytes ds ++ (fraction_bytes fp ++ (term :: rest)), tx ++ [45]⟩ := by
      simp [scan_loop, l_getch, Serial.write]
    rw [htext, hstep, hst]
    simp only [h4, h3, h1, h2, Bool.not_false, ↓reduceIte]
    simp [number_text]

theorem scanf_value_of_well_formed_witness :
    (∀ d ∈ [1, 2], d < 10)
      ∧ (∀ c fs, (some (44, [5, 0]) : Option (Nat × List Nat)) = some (c, fs) →
          (c = 46 ∨ c = 44) ∧ ∀ f ∈ fs, f < 10)
      ∧ ((10 : Nat) = 13 ∨ (10 : Nat) = 10)
      ∧ ((decimal [1, 2] : Nat) : Int) ≤ LONG_MAX DataModel.avr
      ∧ l_scanf_double DataModel.avr ⟨number_text true [1, 2] (some (44, [5, 0])) 10 ++ [120], []⟩
        = some (some ((if true then -1 else 1)
              * ((decimal [1, 2] : ℚ) + fraction_value (some (44, [5, 0])))),
            ⟨[120], [] ++ number_text true [1, 2] (some (44, [5, 0])) 10⟩)
      ∧ (if true then -1 else 1) * ((decimal [1, 2] : ℚ) + fraction_value (some (44, [5, 0])))
        = -1677721601 / 134217728 :=
  ⟨by decide,
    by
      intro c fs h
      simp only [Option.some.injEq, Prod.mk.injEq] at h
      obtain ⟨rfl, rfl⟩ := h
      exact ⟨Or.inr rfl, by decide⟩,
    by decide, by decide,
    (scanf_value_of_well_formed DataModel.avr true [1, 2] (some (44, [5, 0])) 10 [120] []
      (by decide)
      (by
        intro c fs h
        simp only [Option.some.injEq, Prod.mk.injEq] at h
        obtain ⟨rfl, rfl⟩ := h
        exact ⟨Or.inr rfl, by decide⟩)
      (by decide) (by decide)).1,
    by norm_num [decimal, fraction_value, fraction, float_tenth]⟩

/-- C16 (the code misses a case): the input `0-5` followed by CR has a `'-'` in the middle of the
number, after the digit `0`, yet `l_scanf_double` returns -5 and not `NAN`: the test
`integer != 0 || point` takes "nothing entered yet" for "no nonzero digit entered yet".  The
sibling cases are rejected: `5-3`, `1.-`, `--`, `1.2.` and `x` each give `NAN` at the offending
byte. -/
theorem scanf_accepts_sign_after_zero (dm : DataModel) :
    l_scanf_double dm ⟨[48, 45, 53, 13], []⟩ = some (some (-5), ⟨[], [48, 45, 53, 13]⟩)
      ∧ l_scanf_double dm ⟨[53, 45, 51, 13], []⟩ = some (none, ⟨[51, 13], [53, 45]⟩)
      ∧ l_scanf_double dm ⟨[49, 46, 45, 13], []⟩ = some (none, ⟨[13], [49, 46, 45]⟩)
      ∧ l_scanf_double dm ⟨[45, 45, 13], []⟩ = some (none, ⟨[13], [45, 45]⟩)
      ∧ l_scanf_double dm ⟨[49, 46, 50, 46, 13], []⟩ = some (none, ⟨[13], [49, 46, 50, 46]⟩)
      ∧ l_scanf_double dm ⟨[120, 13], []⟩ = some (none, ⟨[13], [120]⟩) := by
  have hw : ∀ n : Nat, n < 10 → wrap_long dm ((n : Nat) : Int) = ((n : Nat) : Int) := by
    intro n hn
    apply wrap_long_of_bounds
    · have : (0 : Int) ≤ ((n : Nat) : Int) := Int.ofNat_nonneg n
      omega
    · have : ((n : Nat) : Int) < 10 := by exact_mod_cast hn
      omega
  have h0 := hw 0 (by decide)
  have h1 := hw 1 (by decide)
  have h5 := hw 5 (by decide)
  simp only [Nat.cast_zero, Nat.cast_one, Nat.cast_ofNat] at h0 h1 h5
  refine ⟨?_, ?_, ?_, ?_, ?_, ?_⟩ <;>
    simp [l_scanf_double, scan_loop, scan_init, l_getch, Serial.write, h0, h1, h5]

end FADEC
